import Mathlib

/-!
Shallow embedding of the core of the remote-haptics repository
(files remote_haptics/recording.py, remote_haptics/api.py,
remote_haptics/haptics_receive.py, remote_haptics/haptics.py).

Modelling conventions:
* Python strings are modelled as lists of characters (type Chars below), so
  that every string operation used by the code (strip, split, startswith,
  removeprefix, join) is a structurally recursive, fully evaluable function.
* Python floats are modelled as rationals.  All constants appearing in the
  code (1/60, 15, 0.95, 0.001, 250, 0.2, 7, 0.01, 10 ** -6, ...) are exact
  rationals.  Python's round(x, 6) is round-half-to-even at 6 decimal
  places, modelled exactly on rationals.
* datetime timestamps are modelled as rationals (seconds).
* Code that raises an exception is modelled with Option: none is the raise.
-/

attribute [local semireducible] Rat.add Rat.mul Rat.sub Rat.inv Rat.ofScientific

namespace RemoteHaptics

/-- Python strings, modelled as lists of characters. -/
abbrev Chars := List Char

/-- Characters removed by Python str.strip() with no arguments. -/
def isPySpace (c : Char) : Bool :=
  c = ' ' || c = '\t' || c = '\n' || c = '\r' || c = '\x0b' || c = '\x0c'

/-- Python str.strip(): drop leading and trailing whitespace. -/
def pyStrip (s : Chars) : Chars :=
  ((s.dropWhile isPySpace).reverse.dropWhile isPySpace).reverse

/-- Python str.split(sep) with a one-character separator: always returns at
least one (possibly empty) field. -/
def pySplit (sep : Char) : Chars → List Chars
  | [] => [[]]
  | c :: rest =>
    let tail := pySplit sep rest
    if c = sep then
      [] :: tail
    else
      match tail with
      | [] => [[c]]
      | f :: fs => (c :: f) :: fs

/-- Python sep.join(parts). -/
def pyJoin (sep : Chars) : List Chars → Chars
  | [] => []
  | [p] => p
  | p :: ps => p ++ sep ++ pyJoin sep ps

/-- Python str.startswith(prefix). -/
def pyStartsWith (pre s : Chars) : Bool :=
  List.isPrefixOf pre s

/-- Python str.removeprefix(prefix). -/
def pyRemovePrefix (pre s : Chars) : Chars :=
  if pyStartsWith pre s then s.drop pre.length else s

/-- Convenience: turn a Lean string literal into the character-list model. -/
def chars (s : String) : Chars := s.data

/-! ## Rational arithmetic helpers (Python float semantics on the decimal grid) -/

/-- Python round() on a rational: round half to even, to the nearest integer. -/
def pyRoundInt (q : ℚ) : ℤ :=
  let f : ℤ := ⌊q⌋
  let frac : ℚ := q - f
  if frac < 1 / 2 then f
  else if 1 / 2 < frac then f + 1
  else if f % 2 = 0 then f else f + 1

/-- Python round(x, places): round half to even at a decimal precision. -/
def pyRound (q : ℚ) (places : ℕ) : ℚ :=
  (pyRoundInt (q * 10 ^ places) : ℚ) / 10 ^ places

/-- A rational lies on the 6-decimal grid: it is an integer multiple of 10⁻⁶
(the claims' reading of "at most 6 decimal places"). -/
def onSixDecimalGrid (q : ℚ) : Prop := ∃ z : ℤ, q = (z : ℚ) / 10 ^ 6

/-! ## Decimal parsing (Python float(str)) -/

/-- Digit value of a character, if it is a decimal digit. -/
def digitVal (c : Char) : Option ℕ :=
  if c = '0' then some 0 else if c = '1' then some 1
  else if c = '2' then some 2 else if c = '3' then some 3
  else if c = '4' then some 4 else if c = '5' then some 5
  else if c = '6' then some 6 else if c = '7' then some 7
  else if c = '8' then some 8 else if c = '9' then some 9
  else none

/-- Parse a non-empty digit run into a natural number. -/
def parseDigits : Chars → Option ℕ
  | [] => none
  | [c] => digitVal c
  | c :: rest => do
    let d ← digitVal c
    let r ← parseDigits rest
    pure (d * 10 ^ rest.length + r)

/-- Value of a fraction-digit run (digits after the decimal point). -/
def parseFracDigits : Chars → Option ℚ
  | [] => some 0
  | c :: rest => do
    let d ← digitVal c
    let r ← parseFracDigits rest
    pure (((d : ℚ) + r) / 10)

/-- Python float(s) on the decimal forms the recording and protocol emit:
optional sign, then digits and/or a decimal point (at least one digit).
Anything else (empty string, stray characters) raises ValueError: none.
Exponent/inf/nan forms accepted by Python never arise here and are omitted. -/
def pyFloat (s : Chars) : Option ℚ := do
  let s := pyStrip s
  let (neg, s) :=
    match s with
    | '-' :: rest => (true, rest)
    | '+' :: rest => (false, rest)
    | _ => (false, s)
  let intPart := s.takeWhile (fun c => (digitVal c).isSome)
  let rest := s.dropWhile (fun c => (digitVal c).isSome)
  let mag ←
    match rest with
    | [] =>
      if intPart.isEmpty then none
      else (parseDigits intPart).map (fun n => (n : ℚ))
    | '.' :: fracs =>
      if fracs.any (fun c => (digitVal c).isNone) then none
      else if intPart.isEmpty && fracs.isEmpty then none
      else do
        let ip ← if intPart.isEmpty then some 0 else parseDigits intPart
        let fp ← parseFracDigits fracs
        pure ((ip : ℚ) + fp)
    | _ => none
  pure (if neg then -mag else mag)

/-! ## Decimal formatting (Python str(float)) -/

/-- Decimal digits of a natural number, most significant first (fuel-driven so
that it evaluates by kernel reduction). -/
def natDigitsAux : ℕ → ℕ → Chars
  | 0, _ => []
  | fuel + 1, n =>
    if n = 0 then []
    else natDigitsAux fuel (n / 10) ++ [Char.ofNat (48 + n % 10)]

/-- Render a natural number in decimal. -/
def natStr (n : ℕ) : Chars :=
  if n = 0 then ['0'] else natDigitsAux (n + 1) n

/-- Render a 6-decimal fraction numerator (0 ≤ n < 10⁶) the way Python str()
renders the fractional part: trailing zeros trimmed, at least one digit. -/
def fracStr (n : ℕ) : Chars :=
  let padded := List.replicate (6 - (natStr n).length) '0' ++ natStr n
  let trimmed := (padded.reverse.dropWhile (· = '0')).reverse
  if trimmed.isEmpty then ['0'] else trimmed

/-- Python str() of a float lying on the 6-decimal grid (the only values the
code ever serializes, by the clamp/round invariant): minimal decimal form with
at least one fractional digit, e.g. 13.335039, 0.5, 13.0, -5.4321.
Rationals off the grid (which do not correspond to any value the code
produces) are first snapped to the grid by Python round-half-even.  (CPython
switches to exponent notation below 1e-04; no theorem below evaluates this
rendering on such a value.) -/
def ratStr (q : ℚ) : Chars :=
  let z : ℤ := if (q * 10 ^ 6).den = 1 then (q * 10 ^ 6).num else pyRoundInt (q * 10 ^ 6)
  let sign : Chars := if z < 0 then ['-'] else []
  let m := z.natAbs
  sign ++ natStr (m / 10 ^ 6) ++ ['.'] ++ fracStr (m % 10 ^ 6)

/-! ## recording.py: constants and the Entry data model -/

/-- haptics.PERSIST_DURATION_SECS. -/
def PERSIST_DURATION_SECS : ℚ := 15

/-- haptics.MAX_UPDATE_RATE_SECS. -/
def MAX_UPDATE_RATE_SECS : ℚ := 1 / 60

/-- haptics.TIME_PRECISION_PLACES. -/
def TIME_PRECISION_PLACES : ℕ := 6

/-- Recording.MEDIA_DEFAULT_ID. -/
def MEDIA_DEFAULT_ID : Chars := chars "DEFAULT"

/-- Recording.MEDIA_CMD_STOP. -/
def MEDIA_CMD_STOP : Chars := chars "stop"

/-- Recording.LINE_REMARK. -/
def LINE_REMARK : Chars := chars "text="

/-- Recording.LINE_MEDIA. -/
def LINE_MEDIA : Chars := chars "media="

/-- The four concrete Entry dataclasses of recording.py
(EntryInputs, EntryRemark, EntryMediaStop, EntryMediaPlay), each carrying the
EntryAbstract fields session_start and time_delta. -/
inductive Entry where
  | inputs (sessionStart timeDelta : ℚ) (vals : List ℚ)
  | remark (sessionStart timeDelta : ℚ) (text : Chars)
  | mediaStop (sessionStart timeDelta : ℚ) (id : Chars)
  | mediaPlay (sessionStart timeDelta : ℚ) (id : Chars) (offset : ℚ) (mediaFile : Chars)
  deriving DecidableEq, Repr

namespace Entry

/-- EntryAbstract.time_delta. -/
def timeDelta : Entry → ℚ
  | .inputs _ td _ => td
  | .remark _ td _ => td
  | .mediaStop _ td _ => td
  | .mediaPlay _ td _ _ _ => td

/-- EntryAbstract.session_start. -/
def sessionStart : Entry → ℚ
  | .inputs ss _ _ => ss
  | .remark ss _ _ => ss
  | .mediaStop ss _ _ => ss
  | .mediaPlay ss _ _ _ _ => ss

/-- True for the EntryMediaAbstract subclasses. -/
def isMedia : Entry → Bool
  | .mediaStop _ _ _ => true
  | .mediaPlay _ _ _ _ _ => true
  | _ => false

/-- Media id of an EntryMediaAbstract subclass (unused for other variants). -/
def mediaId : Entry → Chars
  | .mediaStop _ _ id => id
  | .mediaPlay _ _ id _ _ => id
  | _ => []

/-- Entry[...].with_offset(offset): shift session_start and time_delta. -/
def withOffset (off : ℚ) : Entry → Entry
  | .inputs ss td vs => .inputs (ss + off) (td + off) vs
  | .remark ss td tx => .remark (ss + off) (td + off) tx
  | .mediaStop ss td id => .mediaStop (ss + off) (td + off) id
  | .mediaPlay ss td id o f => .mediaPlay (ss + off) (td + off) id o f

/-- EntryAbstract.to_record_str: the shared time-delta prefix,
round(self.time_delta, haptics.TIME_PRECISION_PLACES) rendered in decimal. -/
def timePrefix (e : Entry) : Chars :=
  ratStr (pyRound e.timeDelta TIME_PRECISION_PLACES)

/-- EntryMediaAbstract.to_record_str: time prefix, then media= and the
@id marker (omitted for the default id). -/
def mediaPrefix (e : Entry) : Chars :=
  let idMarker := if e.mediaId = MEDIA_DEFAULT_ID then [] else '@' :: e.mediaId
  e.timePrefix ++ [':'] ++ LINE_MEDIA ++ idMarker

/-- Entry[...].to_record_str, per concrete variant.  EntryMediaPlay's method
body reads
  "{0}:{1}:{2}\n".format(super(EntryMediaStop, self).to_record_str(), offset, media_file)
which raises unconditionally: super(EntryMediaStop, self) is invalid because
EntryMediaPlay is not a subclass of EntryMediaStop (TypeError), and offset /
media_file are unbound bare names (NameError).  The raise is modelled as none. -/
def toRecordStr : Entry → Option Chars
  | .inputs ss td vs =>
    some ((Entry.inputs ss td vs).timePrefix ++ [':']
      ++ pyJoin [','] (vs.map ratStr) ++ ['\n'])
  | .remark ss td tx =>
    some ((Entry.remark ss td tx).timePrefix ++ [':'] ++ LINE_REMARK ++ tx ++ ['\n'])
  | .mediaStop ss td id =>
    some ((Entry.mediaStop ss td id).mediaPrefix ++ [':'] ++ MEDIA_CMD_STOP ++ ['\n'])
  | .mediaPlay _ _ _ _ _ => none

end Entry

/-- Map Python float() over the comma-separated fields, failing if any field
fails ([float(i) for i in line_content.split(",")]). -/
def parseFloatList (fields : List Chars) : Option (List ℚ) :=
  fields.mapM pyFloat

/-- recording.get_entry_from_line(recording_start, line): parse one body line
of a recording into an Entry.  Exceptions (float() ValueError, IndexError on
a missing media field) are modelled as none. -/
def getEntryFromLine (recordingStart : ℚ) (line : Chars) : Option Entry := do
  let lineData := pySplit ':' (pyStrip line)
  let timeDelta ← pyFloat (lineData.headI)
  let lineContent := pyJoin [':'] (lineData.tail)
  if pyStartsWith LINE_REMARK lineContent then
    pure (.remark recordingStart timeDelta (lineContent.drop LINE_REMARK.length))
  else if pyStartsWith LINE_MEDIA lineContent then
    let mediaData := pySplit ':' (pyRemovePrefix LINE_MEDIA lineContent)
    let (id, mediaData) :=
      match mediaData with
      | m0 :: rest =>
        if pyStartsWith ['@'] m0 then (pyRemovePrefix ['@'] m0, rest)
        else (MEDIA_DEFAULT_ID, m0 :: rest)
      | [] => (MEDIA_DEFAULT_ID, [])
    match mediaData with
    | [] => none
    | m0 :: rest =>
      if m0 = MEDIA_CMD_STOP then
        pure (.mediaStop recordingStart timeDelta id)
      else do
        let mediaOffset ← pyFloat m0
        pure (.mediaPlay recordingStart timeDelta id mediaOffset (pyJoin [':'] rest))
  else do
    let vals ← parseFloatList (pySplit ',' lineContent)
    pure (.inputs recordingStart timeDelta vals)

/-! ## recording.py: HapticsReader

The reader's file is modelled by the parsed list of its body entries (each
body line maps to an Entry via get_entry_from_line; comment lines are
skipped by get_next_record and the footer/end of file merely ends the
stream).  allEntries is the full body, remaining the unread suffix. -/

/-- HapticsReader state: the file (allEntries), the unread suffix of the
file (remaining, i.e. the file cursor), __current_record, __prev_time_delta
and __reached_end. -/
structure ReaderState where
  allEntries : List Entry
  remaining : List Entry
  current : Option Entry
  prevTimeDelta : ℚ
  reachedEnd : Bool
  deriving DecidableEq, Repr

/-- HapticsReader.__init__ followed by its __restart call. -/
def readerInit (es : List Entry) : ReaderState :=
  ⟨es, es, none, 0, false⟩

/-- HapticsReader.get_next_record: none once the end was reached or when the
stream is exhausted (which also latches __reached_end). -/
def getNextRecord (s : ReaderState) : ReaderState × Option Entry :=
  if s.reachedEnd then (s, none)
  else
    match s.remaining with
    | [] => ({ s with reachedEnd := true }, none)
    | e :: rest => ({ s with remaining := rest }, some e)

/-- HapticsReader.__restart: rewind the cursor, clear __current_record and
__prev_time_delta, re-read the header.  Note: __reached_end is NOT reset. -/
def readerRestart (s : ReaderState) : ReaderState :=
  { s with remaining := s.allEntries, current := none, prevTimeDelta := 0 }

/-- Python-dict insertion (records_pruned_media[id] = entry): replace in
place if the key exists, else append (dict preserves insertion order). -/
def dictInsert (d : List (Chars × Entry)) (k : Chars) (v : Entry) :
    List (Chars × Entry) :=
  if d.any (fun p => p.1 = k) then
    d.map (fun p => if p.1 = k then (k, v) else p)
  else
    d ++ [(k, v)]

/-- dict.values() in insertion order. -/
def dictValues (d : List (Chars × Entry)) : List Entry := d.map Prod.snd

/-- The body of the prune loop's media tracking: a pruned media record is
remembered by id (records_pruned_media[records[0].id] = records[0]),
other records are just dropped. -/
def mediaDictStep (d : List (Chars × Entry)) (e : Entry) : List (Chars × Entry) :=
  if e.isMedia then dictInsert d e.mediaId e else d

/-- The inner while loop of get_records_until: pop old records off the front
of the list, remembering the most recent media record per id. -/
def pruneRecords (t maxPrev : ℚ) :
    List Entry → List (Chars × Entry) → List Entry × List (Chars × Entry)
  | [], d => ([], d)
  | r :: rs, d =>
    if r.timeDelta < t - maxPrev then
      pruneRecords t maxPrev rs (mediaDictStep d r)
    else
      (r :: rs, d)

/-- The outer while loop of get_records_until, entered with
__reached_end = False: while the current record is absent or earlier than
time_delta, append it (if any), prune old records, and fetch the next record
— exhaustion latches reached-end and breaks with the current record kept.
Returns (records, pruned media dict, current, remaining, reachedEnd). -/
def recordsLoop (t maxPrev : ℚ) :
    List Entry → Option Entry → List Entry → List (Chars × Entry) →
    List Entry × List (Chars × Entry) × Option Entry × List Entry × Bool
  | remaining, some c, records, pruned =>
    if c.timeDelta < t then
      match remaining with
      | [] =>
        ((pruneRecords t maxPrev (records ++ [c]) pruned).1,
          (pruneRecords t maxPrev (records ++ [c]) pruned).2, some c, [], true)
      | e :: rest =>
        recordsLoop t maxPrev rest (some e)
          (pruneRecords t maxPrev (records ++ [c]) pruned).1
          (pruneRecords t maxPrev (records ++ [c]) pruned).2
    else
      (records, pruned, some c, remaining, false)
  | remaining, none, records, pruned =>
    match remaining with
    | [] =>
      ((pruneRecords t maxPrev records pruned).1,
        (pruneRecords t maxPrev records pruned).2, none, [], true)
    | e :: rest =>
      recordsLoop t maxPrev rest (some e)
        (pruneRecords t maxPrev records pruned).1
        (pruneRecords t maxPrev records pruned).2

/-- One step of Python's stable list.sort() modelled as insertion keeping
equal time deltas in their original relative order. -/
def insertByTd (e : Entry) : List Entry → List Entry
  | [] => [e]
  | x :: xs => if e.timeDelta ≤ x.timeDelta then e :: x :: xs else x :: insertByTd e xs

/-- records.sort(): stable sort by time_delta (Entry.__lt__). -/
def sortByTd (l : List Entry) : List Entry := l.foldr insertByTd []

/-- HapticsReader.get_records_until(time_delta, max_prev_seconds=3). -/
def getRecordsUntil (s : ReaderState) (t : ℚ) (maxPrev : ℚ := 3) :
    ReaderState × List Entry :=
  let s := if t < s.prevTimeDelta then readerRestart s else s
  let s := { s with prevTimeDelta := t }
  if s.reachedEnd then
    (s, [])
  else
    let r := recordsLoop t maxPrev s.remaining s.current [] []
    let result := if r.2.1.isEmpty then r.1 else sortByTd (r.1 ++ dictValues r.2.1)
    ({ s with remaining := r.2.2.2.1, current := r.2.2.1, reachedEnd := r.2.2.2.2 },
      result)

/-! ## recording.py: merge_recordings

A recording file is modelled as its header start timestamp (seconds,
rational) plus the parsed list of its body entries; each loaded
HapticsReader contributes its stream of get_next_record results.  The merge
loop keeps, per reader, the fetched-but-unwritten entry
(reader_entries[index], offset already applied via with_offset). -/

/-- Per-reader merge state: unread entries, the fetched entry awaiting
emission, and this reader's offset from the earliest recording start. -/
structure MergeReader where
  remaining : List Entry
  slot : Option Entry
  offset : ℚ
  deriving DecidableEq, Repr

/-- One pass of the refill loop body for a single reader: if its previous
entry was used up, fetch the next record and apply the offset. -/
def fillSlot (r : MergeReader) : MergeReader :=
  match r.slot with
  | some _ => r
  | none =>
    match r.remaining with
    | [] => r
    | e :: rest => ⟨rest, some (e.withOffset r.offset), r.offset⟩

/-- The refill loop over all readers. -/
def fillSlots (rs : List MergeReader) : List MergeReader := rs.map fillSlot

/-- The oldest-entry scan: the first index whose pending entry has the
strictly smallest offset-adjusted time_delta (Python keeps the first index,
replacing only on a strictly smaller delta). -/
def findOldest : List MergeReader → Option (ℕ × Entry)
  | [] => none
  | r :: rs =>
    match r.slot, findOldest rs with
    | none, none => none
    | none, some (j, be) => some (j + 1, be)
    | some e, none => some (0, e)
    | some e, some (j, be) =>
      if be.timeDelta < e.timeDelta then some (j + 1, be) else some (0, e)

/-- reader_entries[oldest_index] = None after the write. -/
def clearSlot : List MergeReader → ℕ → List MergeReader
  | [], _ => []
  | r :: rs, 0 => { r with slot := none } :: rs
  | r :: rs, n + 1 => r :: clearSlot rs n

/-- Loop variant: total number of fetched-or-unread entries. -/
def mergeMeasure (rs : List MergeReader) : ℕ :=
  (rs.map (fun r => r.remaining.length +
    (match r.slot with | some _ => 1 | none => 0))).sum

/-- Result of the merge writing loop. -/
inductive MergeLoopResult where
  | ok (entries : List Entry) (ending : ℚ)
  | serializeError
  | outOfFuel
  deriving DecidableEq, Repr

/-- The while-True merge loop: refill, select the oldest pending entry,
serialize and write it (to_record_str raising — on an EntryMediaPlay — is
serializeError), clear its slot, remember its delta as the ending delta.
The fuel argument only bounds the iteration count; the caller passes one
more than the loop variant, which provably never runs out. -/
def mergeLoop : ℕ → List MergeReader → List Entry → ℚ → MergeLoopResult
  | 0, _, _, _ => .outOfFuel
  | fuel + 1, readers, acc, ending =>
    let filled := fillSlots readers
    match findOldest filled with
    | none => .ok acc ending
    | some (i, e) =>
      match e.toRecordStr with
      | none => .serializeError
      | some _ => mergeLoop fuel (clearSlot filled i) (acc ++ [e]) e.timeDelta

/-- Stable insertion by recording start time (one step of readers.sort()). -/
def insertByStart (x : ℚ × List Entry) :
    List (ℚ × List Entry) → List (ℚ × List Entry)
  | [] => [x]
  | y :: ys => if x.1 ≤ y.1 then x :: y :: ys else y :: insertByStart x ys

/-- readers.sort(): stable sort by recording_start (HapticsReader.__lt__). -/
def sortByStart (l : List (ℚ × List Entry)) : List (ℚ × List Entry) :=
  l.foldr insertByStart []

/-- Overall result of merge_recordings. -/
inductive MergeResult where
  | noRecordings
  | serializeError
  | outOfFuel
  | ok (header : ℚ) (entries : List Entry) (footer : ℚ)
  deriving DecidableEq, Repr

/-- recording.merge_recordings over parsed recordings (start time, body):
bail out if none, sort readers by start, offset each against the earliest
start, write the earliest start as the output header, k-way merge, and write
the footer as earliest start + the last (biggest) emitted delta, or −1 when
nothing was emitted. -/
def mergeRecordings (recordings : List (ℚ × List Entry)) : MergeResult :=
  match recordings with
  | [] => .noRecordings
  | _ :: _ =>
    let readers := sortByStart recordings
    let earliest := (readers.headD (0, [])).1
    let mrs := readers.map (fun p => (⟨p.2, none, p.1 - earliest⟩ : MergeReader))
    match mergeLoop (mergeMeasure mrs + 1) mrs [] (-1) with
    | .ok entries ending => .ok earliest entries (earliest + ending)
    | .serializeError => .serializeError
    | .outOfFuel => .outOfFuel

/-- The entries a merge reader still owes the merge, offsets applied. -/
def readerPending (r : MergeReader) : List Entry :=
  r.slot.toList ++ r.remaining.map (Entry.withOffset r.offset)

/-! ### Reasoning helpers for get_records_until -/

/-- A list of entries in non-decreasing time_delta order (a well-formed
recording body, per the data model). -/
def EntrySorted (l : List Entry) : Prop :=
  List.Pairwise (fun a b => a.timeDelta ≤ b.timeDelta) l

/-- One iteration of the outer loop acting on (records, pruned-media dict):
append the current record, then run the prune loop. -/
def appendPrune (t mp : ℚ) (p : List Entry × List (Chars × Entry)) (e : Entry) :
    List Entry × List (Chars × Entry) :=
  pruneRecords t mp (p.1 ++ [e]) p.2

/-- Fold the media tracking over a list of pruned records. -/
def buildMediaDict (d : List (Chars × Entry)) (l : List Entry) :
    List (Chars × Entry) :=
  l.foldl mediaDictStep d

/-- Following the claim's words: among the not-yet-returned entries, the
latest media entry older than t − 3 s with the given channel id. -/
def mediaPrunedLatest (pending : List Entry) (t : ℚ) (id : Chars) : Option Entry :=
  ((pending.filter (fun e => e.isMedia && decide (e.timeDelta < t - 3))).filter
    (fun e => decide (e.mediaId = id))).getLast?

/-! ## api.py: protocol constants, server command handling, client send loop -/

/-- api.SessionType. -/
inductive PySessionType where
  | unknown | live | playback
  deriving DecidableEq, Repr

/-- Protocol.CMD_HELP. -/
def CMD_HELP : Chars := chars "help"

/-- Protocol.CMD_VERSION. -/
def CMD_VERSION : Chars := chars "ver"

/-- Protocol.CMD_QUIT. -/
def CMD_QUIT : Chars := chars "quit"

/-- Protocol.CMD_SESSION_TYPE_PREFIX. -/
def CMD_SESSION_TYPE_PREFIX : Chars := chars "session_type:"

/-- Protocol.CMD_TRANSMIT_HAPTICS_PREFIX. -/
def CMD_TRANSMIT_HAPTICS_PREFIX : Chars := chars "txh:"

/-- Protocol.REPLY_GOOD. -/
def REPLY_GOOD : Chars := chars "ACK"

/-- Protocol.REPLY_INVALID. -/
def REPLY_INVALID : Chars := chars "INVALID_REQUEST"

/-- Protocol.VERSION. -/
def PROTOCOL_VERSION : Chars := chars "RemoteHaptics:0.1"

/-- Protocol.SESSION_TYPE_LIVE. -/
def SESSION_TYPE_LIVE : Chars := chars "live"

/-- Protocol.SESSION_TYPE_PLAYBACK. -/
def SESSION_TYPE_PLAYBACK : Chars := chars "playback"

/-- api.PROTOCOL_HAPTICS_PRECISION. -/
def PROTOCOL_HAPTICS_PRECISION : ℕ := 6

/-- api.PROTOCOL_SEND_DUPLICATE_INTERVAL_SECS = PERSIST_DURATION_SECS * 0.95. -/
def PROTOCOL_SEND_DUPLICATE_INTERVAL_SECS : ℚ :=
  PERSIST_DURATION_SECS * (95 / 100)

/-- An ASCII apostrophe (appears inside the help text). -/
def aposChar : Char := Char.ofNat 39

/-- The help_msg string built in HapticServerProtocol.data_received. -/
def helpMsg : Chars :=
  chars "Commands: " ++ pyJoin (chars ", ") [CMD_HELP, CMD_VERSION, CMD_QUIT, CMD_SESSION_TYPE_PREFIX]
    ++ chars "<session type, " ++ [aposChar] ++ chars "live" ++ [aposChar]
    ++ chars " or " ++ [aposChar] ++ chars "playback" ++ [aposChar] ++ chars ">, "
    ++ CMD_TRANSMIT_HAPTICS_PREFIX ++ chars "<0.0-1.0 haptics data>,[...]\r\nExample: "
    ++ CMD_TRANSMIT_HAPTICS_PREFIX ++ chars "0.01,0.42"

/-- The clamp/round expression appearing (identically) in
HapticServerProtocol.data_received and HapticClientProtocol.__send_haptics_data:
min(1, max(0, round(v, PROTOCOL_HAPTICS_PRECISION))). -/
def capRound6 (v : ℚ) : ℚ :=
  min 1 (max 0 (pyRound v PROTOCOL_HAPTICS_PRECISION))

/-- The server's txh payload parse,
[min(1, max(0, round(float(i), PRECISION))) for i in parts.split(",")]:
mapped over the comma-separated fields, a float() ValueError (none) aborts
the whole comprehension. -/
def parseCapList : List Chars → Option (List ℚ)
  | [] => some []
  | f :: fs => do
    let v ← pyFloat f
    let rest ← parseCapList fs
    some (capRound6 v :: rest)

/-- Everything observable that one HapticServerProtocol.data_received call
does: messages handed to __send, callback invocations, connection-keep-alive,
whether the crash-on-error re-raise fires, and the updated
__previous_cmd_txh_time (for a paced txh reply this is the scheduled fire
time of the delayed ACK, which is when __send_txh_reply_delayed stores it). -/
structure ServerRx where
  sends : List Chars
  txhValues : Option (List ℚ)
  sessionTypeSet : Option PySessionType
  keepAlive : Bool
  crashed : Bool
  prevTxh : Option ℚ
  deriving DecidableEq, Repr

/-- HapticServerProtocol.data_received(data), with the current
__previous_cmd_txh_time and the current clock as explicit inputs.
The whole chunk is decoded and stripped, then compared against the commands:
there is no splitting on CRLF line boundaries. -/
def serverDataReceived (prevTxh : Option ℚ) (now : ℚ) (data : Chars) : ServerRx :=
  let message := pyStrip data
  if message = CMD_HELP then
    ⟨[helpMsg], none, none, true, false, prevTxh⟩
  else if message = CMD_VERSION then
    ⟨[PROTOCOL_VERSION], none, none, true, false, prevTxh⟩
  else if message = CMD_QUIT ∨ message = ['\x04'] then
    ⟨[REPLY_GOOD], none, none, false, false, prevTxh⟩
  else if pyStartsWith CMD_SESSION_TYPE_PREFIX message then
    let raw := message.drop CMD_SESSION_TYPE_PREFIX.length
    if raw = SESSION_TYPE_LIVE then
      ⟨[REPLY_GOOD], none, some .live, true, false, prevTxh⟩
    else if raw = SESSION_TYPE_PLAYBACK then
      ⟨[REPLY_GOOD], none, some .playback, true, false, prevTxh⟩
    else
      ⟨[REPLY_INVALID], none, none, true, false, prevTxh⟩
  else if pyStartsWith CMD_TRANSMIT_HAPTICS_PREFIX message then
    let parts := message.drop CMD_TRANSMIT_HAPTICS_PREFIX.length
    match parseCapList (pySplit ',' parts) with
    | none =>
      -- float() raised; INVALID_REQUEST is sent, then PROTOCOL_CRASH_ON_ERROR
      -- (True) re-raises the exception.
      ⟨[REPLY_INVALID], none, none, true, true, prevTxh⟩
    | some vs =>
      let timeDelta := match prevTxh with
        | none => MAX_UPDATE_RATE_SECS
        | some pv => now - pv
      if timeDelta < MAX_UPDATE_RATE_SECS then
        ⟨[REPLY_GOOD], some vs, none, true, false,
          some (now + (MAX_UPDATE_RATE_SECS - timeDelta))⟩
      else
        ⟨[REPLY_GOOD], some vs, none, true, false, some now⟩
  else
    ⟨[REPLY_INVALID ++ chars "\r\n" ++ helpMsg], none, none, true, false, prevTxh⟩

/-- datetime.datetime(datetime.MINYEAR, 1, 1, tzinfo=utc) as seconds relative
to the Unix epoch: the initial value of __last_haptics_intensities_duped. -/
def timeEarliest : ℚ := -62135596800

/-- The per-connection client fields driving duplicate suppression:
__last_haptics_intensities and __last_haptics_intensities_duped. -/
structure ClientState where
  lastIntensities : List ℚ
  lastDuped : ℚ
  deriving DecidableEq, Repr

/-- Client state right after __init__. -/
def clientInit : ClientState := ⟨[], timeEarliest⟩

/-- Result of one HapticClientProtocol.__send_haptics_data pass: either a
txh transmission of the capped values, or a re-check scheduled after the
given delay (asyncio.ensure_future(__send_haptics_data_delayed())). -/
inductive ClientSendAction where
  | sent (capped : List ℚ)
  | rescheduled (delay : ℚ)
  deriving DecidableEq, Repr

/-- HapticClientProtocol.__send_haptics_data, with the pull source's reply
and the current clock as explicit inputs.  None or an empty list reschedules;
otherwise values are capped and sent unless they equal the last transmission
and less than PROTOCOL_SEND_DUPLICATE_INTERVAL_SECS has elapsed. -/
def clientSendHapticsData (s : ClientState) (now : ℚ) (req : Option (List ℚ)) :
    ClientState × ClientSendAction :=
  match req with
  | none => (s, .rescheduled MAX_UPDATE_RATE_SECS)
  | some vals =>
    if vals.isEmpty then
      (s, .rescheduled MAX_UPDATE_RATE_SECS)
    else
      let capped := vals.map capRound6
      if capped ≠ s.lastIntensities ∨
          now - s.lastDuped > PROTOCOL_SEND_DUPLICATE_INTERVAL_SECS then
        (⟨capped, now⟩, .sent capped)
      else
        (s, .rescheduled MAX_UPDATE_RATE_SECS)

/-- Run __send_haptics_data at each given time with the same request values,
collecting the times at which a txh transmission occurs. -/
def clientRunChecks (s : ClientState) (vals : List ℚ) : List ℚ → List ℚ
  | [] => []
  | t :: ts =>
    match clientSendHapticsData s t (some vals) with
    | (s2, .sent _) => t :: clientRunChecks s2 vals ts
    | (s2, .rescheduled _) => clientRunChecks s2 vals ts

/-! ### Discrete-event model of the txh ACK pacing

Each element of arrivals is the clock time at which data_received runs for
one well-formed txh command (the haptics-updated callback fires right then,
before any pacing).  If the elapsed time since __previous_cmd_txh_time is
below MAX_UPDATE_RATE_SECS, the ACK is instead scheduled via
asyncio.ensure_future(__send_txh_reply_delayed(remaining)), firing at
now + remaining; __send_txh_reply_delayed stores __previous_cmd_txh_time
only when it fires.  Scheduled ACKs therefore sit in a pending queue whose
entries fire, in scheduling order, as soon as their time is reached and no
earlier arrival is being processed. -/

/-- Run the server's txh pacing over the sorted arrival times, with the
current pending delayed-ACK fire times and __previous_cmd_txh_time, and
return the times at which ACK replies are emitted. -/
def serverAckRun : List ℚ → List ℚ → Option ℚ → List ℚ
  | [], [], _ => []
  | [], p :: ps, _ => p :: serverAckRun [] ps (some p)
  | t :: ts, p :: ps, prev =>
    if p ≤ t then
      p :: serverAckRun (t :: ts) ps (some p)
    else
      let delta := match prev with
        | none => MAX_UPDATE_RATE_SECS
        | some pv => t - pv
      if delta < MAX_UPDATE_RATE_SECS then
        serverAckRun ts ((p :: ps) ++ [t + (MAX_UPDATE_RATE_SECS - delta)]) prev
      else
        t :: serverAckRun ts (p :: ps) (some t)
  | t :: ts, [], prev =>
    let delta := match prev with
      | none => MAX_UPDATE_RATE_SECS
      | some pv => t - pv
    if delta < MAX_UPDATE_RATE_SECS then
      serverAckRun ts [t + (MAX_UPDATE_RATE_SECS - delta)] prev
    else
      t :: serverAckRun ts [] (some t)
  termination_by arrivals pending _ => 2 * arrivals.length + pending.length
  decreasing_by all_goals simp [List.length_append] <;> omega

/-- ACK emission times for a connection starting with no previous txh. -/
def serverAckTimes (arrivals : List ℚ) : List ℚ :=
  serverAckRun arrivals [] none

/-- The ACK time of one txh arrival in the lockstep (one outstanding command)
regime: immediate when at least 1/60 s has passed since the previous ACK,
else delayed to exactly previous + 1/60 (the remaining time). -/
def seqAck (prev : Option ℚ) (t : ℚ) : ℚ :=
  match prev with
  | none => t
  | some pv => if t - pv < MAX_UPDATE_RATE_SECS then pv + MAX_UPDATE_RATE_SECS else t

/-- ACK times of a lockstep arrival sequence, one per arrival. -/
def seqAckList : Option ℚ → List ℚ → List ℚ
  | _, [] => []
  | prev, t :: ts => seqAck prev t :: seqAckList (some (seqAck prev t)) ts

/-- A lockstep client: every txh arrives no earlier than the emission of the
previous txh ACK (the real client waits for each ACK before sending). -/
def lockstepB : Option ℚ → List ℚ → Bool
  | _, [] => true
  | prev, t :: ts =>
    (match prev with
      | none => true
      | some pv => decide (pv ≤ t)) && lockstepB (some (seqAck prev t)) ts

/-! ## haptics_receive.py: FeedbackMapper -/

/-- FeedbackMapper constructor arguments that configure input mapping. -/
structure FMConfig where
  inputIds : List ℕ
  overrideIds : List ℕ
  deriving DecidableEq, Repr

/-- FeedbackMapper mutable state: __previous_time, __previous_value,
__physics_timer (armed or not), __physics_calc_impact,
__physics_calc_impact_boost, __physics_calc_avg_value. -/
structure FMState where
  previousTime : Option ℚ
  previousValue : ℚ
  physicsTimer : Bool
  impact : ℚ
  impactBoost : ℚ
  avgValue : ℚ
  deriving DecidableEq, Repr

/-- FeedbackMapper state right after __init__. -/
def fmInit : FMState := ⟨none, 0, false, 0, 0, 0⟩

/-- FeedbackMapper.__physics_interrupt: cancel any pending physics timer and
drive both outputs to zero; no other state field is touched. -/
def physicsInterrupt (s : FMState) : FMState × (ℚ × ℚ) :=
  ({ s with physicsTimer := false }, (0, 0))

/-- The elapsed time used by FeedbackMapper.__physics_update: twice the
persist duration when no previous update exists, else now − previous_time. -/
def physicsTimeDelta (s : FMState) (now : ℚ) : ℚ :=
  match s.previousTime with
  | none => PERSIST_DURATION_SECS * 2
  | some pt => now - pt

/-- FeedbackMapper.__physics_update(value) at clock time now.  Returns the
new state and the (strong, weak) pair passed to apply_outputs.  The running
average is updated before the persist-duration check; only the impact and
impact-boost updates sit inside the Δt ≤ PERSIST_DURATION_SECS branch.
(Rationals make the time_ratio division total; Python would raise
ZeroDivisionError at time_delta = 0, a case no theorem below exercises.) -/
def physicsUpdate (s : FMState) (now : ℚ) (value : ℚ) : FMState × (ℚ × ℚ) :=
  let timeDelta := physicsTimeDelta s now
  let timeRatio := timeDelta / MAX_UPDATE_RATE_SECS
  let avgPercentOld := 3 / 4 + timeRatio
  let avg1 := value * avgPercentOld + s.avgValue * (1 - avgPercentOld)
  let avg2 := if |value - avg1| < 1 / 1000 then value else avg1
  let avgValueDelta := if |value - avg1| < 1 / 1000 then 0 else |value - avg1|
  let valueDelta := |(value - s.previousValue) / timeRatio|
  let impactA := (valueDelta + avgValueDelta) ^ (3 : ℕ)
  let boostA :=
    if impactA > 250 then
      min 7 (impactA * (2 / 10) * timeRatio)
    else
      let b := max 0 (s.impactBoost - timeRatio / 2)
      if b < 1 / 100 then 0 else b
  let boost2 := if timeDelta ≤ PERSIST_DURATION_SECS then boostA else s.impactBoost
  let impact2 :=
    if timeDelta ≤ PERSIST_DURATION_SECS then
      if boostA > 0 then max 1 impactA else impactA
    else s.impact
  let outStrong := min 1 (max 0 impact2)
  let outWeak := max 0 (value - outStrong * (1 / 2))
  let timer2 := if impact2 > 0 ∨ boost2 > 0 ∨ avgValueDelta > 0 then true else s.physicsTimer
  (⟨some now, value, timer2, impact2, boost2, avg2⟩, (outStrong, outWeak))

/-- FeedbackMapper.parse_inputs(haptics_inputs) at clock time now, with None
modelled as none.  None, an empty list, or no matching configured index
(neither a normal nor an override index within range) interrupts physics;
otherwise the matched values are averaged, overrides applied via max, and
__physics_update invoked. -/
def parseInputs (cfg : FMConfig) (s : FMState) (now : ℚ) (req : Option (List ℚ)) :
    FMState × (ℚ × ℚ) :=
  match req with
  | none => physicsInterrupt s
  | some inputs =>
    if inputs.isEmpty then
      physicsInterrupt s
    else
      let matched := cfg.inputIds.filter (fun i => i < inputs.length)
      let value0 : ℚ := matched.foldl (fun acc i => acc + inputs.getD i 0) 0
      let matches0 := matched.length
      let matches1 :=
        if matches0 > 0 then matches0
        else if cfg.overrideIds.any (fun i => i < inputs.length) then 1 else 0
      if matches1 < 1 then
        physicsInterrupt s
      else
        let value1 := value0 / (matches1 : ℚ)
        let value2 := (cfg.overrideIds.filter (fun i => i < inputs.length)).foldl
          (fun acc i => max acc (inputs.getD i 0)) value1
        physicsUpdate s now value2

/-- Invariant of the pruned-media dict: every key is its value's media id,
and keys are distinct. -/
def DictInv (d : List (Chars × Entry)) : Prop :=
  (∀ p ∈ d, p.1 = p.2.mediaId) ∧ (d.map Prod.fst).Nodup

/-- A small well-formed recording used to witness C9: inputs at 1, 5 and 9
seconds and two media events on channel A at 1 and 2 seconds. -/
def c9WitnessEntries : List Entry :=
  [.inputs 0 1 [1 / 2], .mediaPlay 0 1 (chars "A") 0 (chars "f"),
    .mediaStop 0 2 (chars "A"), .inputs 0 5 [1], .inputs 0 9 [3 / 4]]

/-- The two-recording merge input used to witness C5 (starts 103 and 100). -/
def c5WitnessRecordings : List (ℚ × List Entry) :=
  [(103, [Entry.inputs 103 0 [1], Entry.inputs 103 2 [2]]),
    (100, [Entry.inputs 100 1 [3], Entry.inputs 100 4 [4]])]

/-! ## C1: round-trip of the recording codec -/

/-- A concrete EntryMediaPlay (the parser's own doc-comment example line). -/
def mediaPlayExample : Entry :=
  .mediaPlay 0 0 MEDIA_DEFAULT_ID (-54321 / 10000) (chars "/path/to/media.mp4")

/-- A concrete default-id EntryMediaStop. -/
def mediaStopDefaultExample : Entry := .mediaStop 0 1 MEDIA_DEFAULT_ID

/-- C1: the round-trip law parse(serialize(e)) == e fails on the code.
EntryMediaPlay.to_record_str raises unconditionally (TypeError from
super(EntryMediaStop, self) plus NameError from the bare offset/media_file),
so serialization of any media-play entry fails; and a default-id
EntryMediaStop serializes to "1.0:media=:stop", which get_entry_from_line
cannot parse back (it reads the empty field before "stop" as a media-play
offset and float("") raises ValueError). -/
theorem c1_roundtrip_fails_on_media_entries :
    Entry.toRecordStr mediaPlayExample = none ∧
    Entry.toRecordStr mediaStopDefaultExample = some (chars "1.0:media=:stop\n") ∧
    getEntryFromLine 0 (chars "1.0:media=:stop\n") = none := by
  refine ⟨rfl, rfl, ?_⟩
  decide

/-- Supporting check: the round trip does hold for a concrete EntryInputs. -/
theorem roundtrip_inputs_example :
    (Entry.toRecordStr (.inputs 0 (13335039 / 1000000) [301961 / 1000000, 1])).bind
      (getEntryFromLine 0)
      = some (.inputs 0 (13335039 / 1000000) [301961 / 1000000, 1]) := by
  decide

/-- Supporting check: the round trip does hold for a concrete EntryRemark. -/
theorem roundtrip_remark_example :
    (Entry.toRecordStr (.remark 0 (421337 / 10000) (chars "a note: with = signs"))).bind
      (getEntryFromLine 0)
      = some (.remark 0 (421337 / 10000) (chars "a note: with = signs")) := by
  decide

/-- Supporting check: the round trip does hold for a custom-id EntryMediaStop. -/
theorem roundtrip_mediastop_custom_id_example :
    (Entry.toRecordStr (.mediaStop 0 1 (chars "player1"))).bind (getEntryFromLine 0)
      = some (.mediaStop 0 1 (chars "player1")) := by
  decide

/-! ## C3: server-side rate pacing of txh ACKs -/

/-- A lockstep run constrains its first arrival to come after the previous
ACK. -/
theorem lockstepB_head (a : ℚ) (ts : List ℚ) (h : lockstepB (some a) ts = true) :
    ∀ u ∈ ts.head?, a ≤ u := by
  cases ts with
  | nil => simp
  | cons u ts2 =>
    intro v hv
    simp only [List.head?_cons, Option.mem_def, Option.some.injEq] at hv
    subst hv
    unfold lockstepB at h
    rw [Bool.and_eq_true] at h
    simpa using h.1

/-- A single pending delayed ACK that is due before the next arrival fires
first, emitting at its scheduled time and recording that time as the new
previous-txh timestamp. -/
theorem serverAckRun_pending_one (ts : List ℚ) (pv a : ℚ)
    (h : ∀ u ∈ ts.head?, a ≤ u) :
    serverAckRun ts [a] (some pv) = a :: serverAckRun ts [] (some a) := by
  cases ts with
  | nil => simp [serverAckRun]
  | cons t ts2 =>
    have ha : a ≤ t := h t rfl
    simp only [serverAckRun]
    rw [if_pos ha]

/-- Under a lockstep client the event-queue run coincides with the simple
per-arrival recurrence seqAckList. -/
theorem serverAckRun_eq_seq (ts : List ℚ) : ∀ (prev : Option ℚ),
    lockstepB prev ts = true → serverAckRun ts [] prev = seqAckList prev ts := by
  induction ts with
  | nil => intro prev _; simp [serverAckRun, seqAckList]
  | cons t ts2 ih =>
    intro prev hl
    unfold lockstepB at hl
    rw [Bool.and_eq_true] at hl
    obtain ⟨hp, hrest⟩ := hl
    cases prev with
    | none =>
      simp only [serverAckRun]
      rw [if_neg (lt_irrefl _)]
      have hseq : seqAck none t = t := rfl
      rw [hseq] at hrest
      simp only [seqAckList, hseq]
      exact congrArg (t :: ·) (ih _ hrest)
    | some pv =>
      by_cases hd : t - pv < MAX_UPDATE_RATE_SECS
      · have ha : seqAck (some pv) t = pv + MAX_UPDATE_RATE_SECS := by
          simp [seqAck, hd]
        rw [ha] at hrest
        have harith : t + (MAX_UPDATE_RATE_SECS - (t - pv)) = pv + MAX_UPDATE_RATE_SECS := by
          ring
        simp only [serverAckRun]
        rw [if_pos hd, harith,
          serverAckRun_pending_one ts2 pv (pv + MAX_UPDATE_RATE_SECS)
            (lockstepB_head _ _ hrest)]
        simp only [seqAckList, ha]
        exact congrArg (_ :: ·) (ih _ hrest)
      · have ha : seqAck (some pv) t = t := by simp [seqAck, hd]
        rw [ha] at hrest
        simp only [serverAckRun]
        rw [if_neg hd]
        simp only [seqAckList, ha]
        exact congrArg (t :: ·) (ih _ hrest)

/-- Consecutive lockstep ACK times are at least 1/60 s apart. -/
theorem seqAckList_chain (ts : List ℚ) : ∀ (prev : Option ℚ),
    lockstepB prev ts = true →
    List.Chain' (fun a b => a + MAX_UPDATE_RATE_SECS ≤ b) (seqAckList prev ts) := by
  induction ts with
  | nil => intro prev _; simp [seqAckList]
  | cons t ts2 ih =>
    intro prev hl
    unfold lockstepB at hl
    rw [Bool.and_eq_true] at hl
    obtain ⟨-, hrest⟩ := hl
    rw [seqAckList, List.chain'_cons']
    refine ⟨?_, ih _ hrest⟩
    intro u hu
    cases ts2 with
    | nil => simp [seqAckList] at hu
    | cons v ts3 =>
      simp only [seqAckList, List.head?_cons, Option.mem_def, Option.some.injEq] at hu
      subst hu
      unfold lockstepB at hrest
      rw [Bool.and_eq_true] at hrest
      generalize hA : seqAck prev t = a at *
      have hav : a ≤ v := by simpa using hrest.1
      by_cases hv : v - a < MAX_UPDATE_RATE_SECS
      · simp [seqAck, if_pos hv]
      · simp only [seqAck, if_neg hv]
        linarith [not_lt.mp hv]

/-- C3 counterexample: with txh commands arriving at 0 s, 5 ms and 6 ms
(the second and third while the second ACK is still pending, so before any
delayed ACK has updated __previous_cmd_txh_time), the server emits ACKs at
0, 1/60 and 1/60 — the last two are zero seconds apart, closer than the
1/60 s floor the claim asserts for every sequence of txh commands. -/
theorem c3_pacing_counterexample :
    List.Chain' (· ≤ ·) [(0 : ℚ), 1 / 200, 3 / 500] ∧
    serverAckTimes [0, 1 / 200, 3 / 500] = [0, 1 / 60, 1 / 60] ∧
    ¬ List.Chain' (fun a b => a + MAX_UPDATE_RATE_SECS ≤ b)
        (serverAckTimes [0, 1 / 200, 3 / 500]) := by
  have h2 : serverAckTimes [(0 : ℚ), 1 / 200, 3 / 500] = [0, 1 / 60, 1 / 60] := by
    norm_num [serverAckTimes, serverAckRun, MAX_UPDATE_RATE_SECS]
  refine ⟨by norm_num [List.chain'_cons], h2, ?_⟩
  rw [h2]
  intro hc
  obtain ⟨-, h3⟩ := List.chain'_cons.mp hc
  obtain ⟨hbad, -⟩ := List.chain'_cons.mp h3
  norm_num [MAX_UPDATE_RATE_SECS] at hbad

/-- C3 amended: provided each txh arrives no earlier than the emission of the
previous txh's ACK (the protocol's lockstep client), the ACK for an early
txh is delayed to exactly previous-ACK + 1/60 while a late one is ACKed
immediately (seqAckList), and successive ACK emissions are never less than
1/60 s apart. -/
theorem c3_pacing_lockstep (arrivals : List ℚ)
    (h : lockstepB none arrivals = true) :
    serverAckTimes arrivals = seqAckList none arrivals ∧
    List.Chain' (fun a b => a + MAX_UPDATE_RATE_SECS ≤ b)
      (serverAckTimes arrivals) := by
  have he := serverAckRun_eq_seq arrivals none h
  refine ⟨he, ?_⟩
  unfold serverAckTimes
  rw [he]
  exact seqAckList_chain arrivals none h

/-- Witness for C3 amended: a lockstep client sending at 0, 10 ms and
1/30 s. -/
theorem c3_pacing_lockstep_witness :
    serverAckTimes [0, 1 / 100, 1 / 30] = seqAckList none [0, 1 / 100, 1 / 30] ∧
    List.Chain' (fun a b => a + MAX_UPDATE_RATE_SECS ≤ b)
      (serverAckTimes [0, 1 / 100, 1 / 30]) :=
  c3_pacing_lockstep [0, 1 / 100, 1 / 30] (by decide)

/-! ## C4: backward seek restarts the reader -/

/-- C4: once the reader has reached the end of the recording, seeking
backwards no longer works: __restart does not reset __reached_end, so after
a get_records_until(10) that ran past the single entry at time delta 1, a
get_records_until(2) returns nothing, while a fresh reader of the same file
returns the entry.  (The backward seek itself is taken: t = 2 < 10.) -/
theorem c4_restart_after_end_loses_entries :
    (getRecordsUntil ((getRecordsUntil (readerInit [.inputs 0 1 [1 / 2]]) 10).1) 2).2
        = [] ∧
    (getRecordsUntil ((getRecordsUntil (readerInit [.inputs 0 1 [1 / 2]]) 10).1) 2).1.reachedEnd
        = true ∧
    (getRecordsUntil (readerInit [.inputs 0 1 [1 / 2]]) 2).2
        = [Entry.inputs 0 1 [1 / 2]] := by
  refine ⟨?_, ?_, ?_⟩ <;> decide

/-- Supporting theorem: before the end has been reached the claim does hold —
a backward seek restarts from the header and behaves exactly like a fresh
reader of the same file. -/
theorem restart_before_end_equals_fresh (s : ReaderState) (t maxPrev : ℚ)
    (hEnd : s.reachedEnd = false) (hBack : t < s.prevTimeDelta) :
    getRecordsUntil s t maxPrev = getRecordsUntil (readerInit s.allEntries) t maxPrev := by
  unfold getRecordsUntil readerRestart readerInit
  rw [if_pos hBack]
  by_cases hf : t < 0
  · rw [if_pos hf]
    simp [hEnd]
  · rw [if_neg hf]
    simp [hEnd]

/-! ## C9: lemmas about get_records_until on a sorted recording -/

/-- On a sorted list, taking while time_delta < t is the same as filtering. -/
theorem takeWhile_lt_eq_filter (t : ℚ) (l : List Entry) (hs : EntrySorted l) :
    l.takeWhile (fun e => decide (e.timeDelta < t))
      = l.filter (fun e => decide (e.timeDelta < t)) := by
  induction l with
  | nil => rfl
  | cons e rest ih =>
    rw [EntrySorted, List.pairwise_cons] at hs
    by_cases he : e.timeDelta < t
    · simp [List.takeWhile_cons, List.filter_cons, he, ih hs.2]
    · simp only [List.takeWhile_cons, List.filter_cons, decide_eq_true_eq, he,
        decide_False, Bool.false_eq_true, if_false]
      rw [eq_comm, List.filter_eq_nil_iff]
      intro x hx
      simp only [decide_eq_true_eq]
      exact fun hxt => he (lt_of_le_of_lt (hs.1 x hx) hxt)

/-- Membership in an insertion step of the stable sort. -/
theorem mem_insertByTd (e x : Entry) (l : List Entry) :
    x ∈ insertByTd e l ↔ x = e ∨ x ∈ l := by
  induction l with
  | nil => simp [insertByTd]
  | cons y ys ih =>
    unfold insertByTd
    split
    · simp [List.mem_cons]
    · simp only [List.mem_cons, ih]
      tauto

/-- Membership in the stable sort. -/
theorem mem_sortByTd (x : Entry) (l : List Entry) :
    x ∈ sortByTd l ↔ x ∈ l := by
  induction l with
  | nil => simp [sortByTd]
  | cons y ys ih =>
    simp only [sortByTd, List.foldr_cons]
    rw [mem_insertByTd]
    simp only [sortByTd] at ih
    rw [ih, List.mem_cons]

/-- Insertion preserves sortedness. -/
theorem sorted_insertByTd (e : Entry) (l : List Entry) (hs : EntrySorted l) :
    EntrySorted (insertByTd e l) := by
  induction l with
  | nil => simp [insertByTd, EntrySorted]
  | cons y ys ih =>
    rw [EntrySorted, List.pairwise_cons] at hs
    unfold insertByTd
    split
    · rename_i hle
      rw [EntrySorted, List.pairwise_cons]
      refine ⟨?_, List.pairwise_cons.mpr hs⟩
      intro x hx
      rcases List.mem_cons.mp hx with rfl | hx
      · exact hle
      · exact le_trans hle (hs.1 x hx)
    · rename_i hgt
      rw [EntrySorted, List.pairwise_cons]
      refine ⟨?_, ih hs.2⟩
      intro x hx
      rcases (mem_insertByTd e x ys).mp hx with rfl | hx
      · exact le_of_lt (lt_of_not_le hgt)
      · exact hs.1 x hx

/-- The stable sort sorts. -/
theorem sorted_sortByTd (l : List Entry) : EntrySorted (sortByTd l) := by
  induction l with
  | nil => simp [sortByTd, EntrySorted]
  | cons y ys ih => exact sorted_insertByTd y (sortByTd ys) ih

/-- The prune loop on a sorted record list: everything older than
t − maxPrev is dropped (feeding the media dict), the rest is kept. -/
theorem pruneRecords_sorted (t mp : ℚ) (l : List Entry) (hs : EntrySorted l) :
    ∀ d, pruneRecords t mp l d =
      (l.filter (fun e => !decide (e.timeDelta < t - mp)),
        buildMediaDict d (l.filter (fun e => decide (e.timeDelta < t - mp)))) := by
  induction l with
  | nil => intro d; simp [pruneRecords, buildMediaDict]
  | cons r rs ih =>
    rw [EntrySorted, List.pairwise_cons] at hs
    intro d
    by_cases hr : r.timeDelta < t - mp
    · simp only [pruneRecords, if_pos hr]
      rw [ih hs.2 (mediaDictStep d r)]
      simp [List.filter_cons, hr, buildMediaDict]
    · simp only [pruneRecords, if_neg hr]
      have h1 : (r :: rs).filter (fun e => !decide (e.timeDelta < t - mp)) = r :: rs := by
        rw [List.filter_eq_self]
        intro x hx
        rcases List.mem_cons.mp hx with rfl | hx
        · simpa using hr
        · simp only [Bool.not_eq_eq_eq_not, Bool.not_true, decide_eq_false_iff_not]
          exact fun hxt => hr (lt_of_le_of_lt (hs.1 x hx) hxt)
      have h2 : (r :: rs).filter (fun e => decide (e.timeDelta < t - mp)) = [] := by
        rw [List.filter_eq_nil_iff]
        intro x hx
        rcases List.mem_cons.mp hx with rfl | hx
        · simpa using hr
        · simp only [decide_eq_true_eq]
          exact fun hxt => hr (lt_of_le_of_lt (hs.1 x hx) hxt)
      rw [h1, h2]
      simp [buildMediaDict]

/-- Unfolding the loop: no current record, file exhausted. -/
theorem recordsLoop_none_nil (t mp : ℚ) (records : List Entry)
    (pruned : List (Chars × Entry)) :
    recordsLoop t mp [] none records pruned
      = ((pruneRecords t mp records pruned).1,
          (pruneRecords t mp records pruned).2, none, [], true) := rfl

/-- Unfolding the loop: no current record, fetch the next one. -/
theorem recordsLoop_none_cons (t mp : ℚ) (f : Entry) (rest records : List Entry)
    (pruned : List (Chars × Entry)) :
    recordsLoop t mp (f :: rest) none records pruned
      = recordsLoop t mp rest (some f)
          (pruneRecords t mp records pruned).1
          (pruneRecords t mp records pruned).2 := rfl

/-- Unfolding the loop: in-window current record, file exhausted. -/
theorem recordsLoop_some_lt_nil (t mp : ℚ) (c : Entry) (records : List Entry)
    (pruned : List (Chars × Entry)) (hc : c.timeDelta < t) :
    recordsLoop t mp [] (some c) records pruned
      = ((pruneRecords t mp (records ++ [c]) pruned).1,
          (pruneRecords t mp (records ++ [c]) pruned).2, some c, [], true) := by
  rw [recordsLoop.eq_def]
  dsimp only
  rw [if_pos hc]

/-- Unfolding the loop: in-window current record, fetch the next one. -/
theorem recordsLoop_some_lt_cons (t mp : ℚ) (c f : Entry) (rest records : List Entry)
    (pruned : List (Chars × Entry)) (hc : c.timeDelta < t) :
    recordsLoop t mp (f :: rest) (some c) records pruned
      = recordsLoop t mp rest (some f)
          (pruneRecords t mp (records ++ [c]) pruned).1
          (pruneRecords t mp (records ++ [c]) pruned).2 := by
  rw [recordsLoop.eq_def]
  dsimp only
  rw [if_pos hc]

/-- Unfolding the loop: the current record is at or past t, so the loop does
not run. -/
theorem recordsLoop_some_ge (t mp : ℚ) (c : Entry) (remaining records : List Entry)
    (pruned : List (Chars × Entry)) (hc : ¬c.timeDelta < t) :
    recordsLoop t mp remaining (some c) records pruned
      = (records, pruned, some c, remaining, false) := by
  rw [recordsLoop.eq_def]
  dsimp only
  rw [if_neg hc]

/-- The outer loop computes a left fold of append-then-prune over the
not-yet-returned entries earlier than t. -/
theorem recordsLoop_eq_foldl (t mp : ℚ) (R : List Entry) :
    ∀ (c : Option Entry) (records : List Entry) (pruned : List (Chars × Entry)),
    (c = none → records = []) →
    ((recordsLoop t mp R c records pruned).1, (recordsLoop t mp R c records pruned).2.1)
      = List.foldl (appendPrune t mp) (records, pruned)
          ((c.toList ++ R).takeWhile (fun e => decide (e.timeDelta < t))) := by
  induction R with
  | nil =>
    intro c records pruned hc
    match c with
    | none =>
      rw [hc rfl, recordsLoop_none_nil]
      simp [pruneRecords]
    | some e =>
      by_cases he : e.timeDelta < t
      · rw [recordsLoop_some_lt_nil t mp e records pruned he]
        simp [List.takeWhile_cons, he, appendPrune]
      · rw [recordsLoop_some_ge t mp e [] records pruned he]
        simp [List.takeWhile_cons, he]
  | cons f rest ih =>
    intro c records pruned hc
    match c with
    | none =>
      rw [hc rfl, recordsLoop_none_cons]
      simp only [pruneRecords]
      have := ih (some f) [] pruned (by simp)
      simpa using this
    | some e =>
      by_cases he : e.timeDelta < t
      · rw [recordsLoop_some_lt_cons t mp e f rest records pruned he,
          ih (some f) _ _ (by simp)]
        simp only [Option.toList_some, List.cons_append, List.nil_append,
          List.singleton_append]
        rw [List.takeWhile_cons_of_pos (p := fun x => decide (x.timeDelta < t))
            (a := e) (l := f :: rest) (by simpa using he),
          List.foldl_cons]
        rfl
      · rw [recordsLoop_some_ge t mp e (f :: rest) records pruned he]
        simp [List.takeWhile_cons, he]

/-- Folding append-then-prune over sorted input keeps exactly the in-window
entries and feeds everything older to the media dict, in order. -/
theorem foldl_appendPrune (t mp : ℚ) (L : List Entry) :
    ∀ P : List Entry, EntrySorted (P ++ L) →
    List.foldl (appendPrune t mp)
        (P.filter (fun e => !decide (e.timeDelta < t - mp)),
          buildMediaDict [] (P.filter (fun e => decide (e.timeDelta < t - mp)))) L
      = ((P ++ L).filter (fun e => !decide (e.timeDelta < t - mp)),
          buildMediaDict [] ((P ++ L).filter (fun e => decide (e.timeDelta < t - mp)))) := by
  induction L with
  | nil => intro P _; simp
  | cons e L2 ih =>
    intro P hs
    have hsub : EntrySorted (P.filter (fun e => !decide (e.timeDelta < t - mp)) ++ [e]) := by
      rw [EntrySorted, List.pairwise_append]
      obtain ⟨hP, hEL, hcross⟩ := List.pairwise_append.mp hs
      refine ⟨List.Pairwise.sublist (List.filter_sublist _) hP, by simp, ?_⟩
      intro a ha b hb
      rcases List.mem_singleton.mp hb with rfl
      exact hcross a (List.mem_of_mem_filter ha) b (List.mem_cons_self _ _)
    have hstep : appendPrune t mp
        (P.filter (fun e => !decide (e.timeDelta < t - mp)),
          buildMediaDict [] (P.filter (fun e => decide (e.timeDelta < t - mp)))) e
        = ((P ++ [e]).filter (fun e => !decide (e.timeDelta < t - mp)),
            buildMediaDict [] ((P ++ [e]).filter (fun e => decide (e.timeDelta < t - mp)))) := by
      unfold appendPrune
      rw [pruneRecords_sorted t mp _ hsub]
      simp [List.filter_append, List.filter_filter, Bool.and_self,
        Bool.and_not_self, buildMediaDict, List.foldl_append]
    rw [List.foldl_cons, hstep]
    have := ih (P ++ [e]) (by simpa [List.append_assoc] using hs)
    simpa [List.append_assoc] using this

/-- dictInsert preserves the dict invariant. -/
theorem dictInsert_inv (d : List (Chars × Entry)) (k : Chars) (v : Entry)
    (h : DictInv d) (hk : k = v.mediaId) : DictInv (dictInsert d k v) := by
  obtain ⟨hkey, hnod⟩ := h
  unfold dictInsert
  split
  · constructor
    · intro p hp
      rcases List.mem_map.mp hp with ⟨q, hq, rfl⟩
      by_cases hqk : q.1 = k
      · simp [hqk, hk]
      · simpa [hqk] using hkey q hq
    · have : (d.map (fun p => if p.1 = k then (k, v) else p)).map Prod.fst
          = d.map Prod.fst := by
        rw [List.map_map]
        refine List.map_congr_left ?_
        intro p _
        by_cases hpk : p.1 = k <;> simp [hpk]
      rw [this]
      exact hnod
  · rename_i hany
    rw [Bool.not_eq_true, List.any_eq_false] at hany
    constructor
    · intro p hp
      rcases List.mem_append.mp hp with hp | hp
      · exact hkey p hp
      · rcases List.mem_singleton.mp hp with rfl
        exact hk
    · rw [List.map_append, List.nodup_append]
      refine ⟨hnod, List.nodup_singleton _, ?_⟩
      intro a ha hb
      rcases List.mem_map.mp ha with ⟨p, hp, rfl⟩
      simp only [List.map_cons, List.map_nil, List.mem_singleton] at hb
      have := hany p hp
      rw [decide_eq_true_eq] at this
      exact this hb

/-- Membership in the values of a dict after insertion. -/
theorem dictInsert_values_mem (d : List (Chars × Entry)) (k : Chars) (v x : Entry)
    (hinv : DictInv d) :
    x ∈ dictValues (dictInsert d k v) ↔
      (x = v ∨ (x ∈ dictValues d ∧ x.mediaId ≠ k)) := by
  obtain ⟨hkey, -⟩ := hinv
  unfold dictInsert dictValues
  split
  · rename_i hany
    rw [List.any_eq_true] at hany
    obtain ⟨p0, hp0, hp0k⟩ := hany
    rw [decide_eq_true_eq] at hp0k
    rw [List.map_map, List.mem_map]
    constructor
    · rintro ⟨q, hq, hx⟩
      by_cases hqk : q.1 = k
      · left
        rw [← hx]
        simp [hqk]
      · right
        have hx2 : q.2 = x := by
          rw [← hx]
          simp [hqk]
        refine ⟨List.mem_map.mpr ⟨q, hq, hx2⟩, ?_⟩
        rw [← hx2, ← hkey q hq]
        exact hqk
    · rintro (rfl | ⟨hx, hxk⟩)
      · exact ⟨p0, hp0, by simp [hp0k]⟩
      · rcases List.mem_map.mp hx with ⟨q, hq, rfl⟩
        refine ⟨q, hq, ?_⟩
        have hqk : q.1 ≠ k := by
          rw [hkey q hq]
          exact hxk
        simp [hqk]
  · rename_i hany
    rw [Bool.not_eq_true, List.any_eq_false] at hany
    rw [List.map_append]
    simp only [List.map_cons, List.map_nil, List.mem_append, List.mem_singleton]
    constructor
    · rintro (hx | rfl)
      · right
        refine ⟨hx, ?_⟩
        rcases List.mem_map.mp hx with ⟨q, hq, rfl⟩
        rw [← hkey q hq]
        simpa using hany q hq
      · left; rfl
    · rintro (rfl | ⟨hx, -⟩)
      · right; rfl
      · left; exact hx

/-- Folding the media tracking preserves the dict invariant. -/
theorem buildMediaDict_inv (ml : List Entry) :
    ∀ d, DictInv d → DictInv (buildMediaDict d ml) := by
  induction ml with
  | nil => intro d h; exact h
  | cons e rest ih =>
    intro d h
    rw [buildMediaDict, List.foldl_cons]
    refine ih _ ?_
    unfold mediaDictStep
    split
    · exact dictInsert_inv d e.mediaId e h rfl
    · exact h

/-- The media tracking only looks at media entries. -/
theorem buildMediaDict_filter_media (ml : List Entry) :
    ∀ d, buildMediaDict d ml = buildMediaDict d (ml.filter (fun e => e.isMedia)) := by
  induction ml with
  | nil => intro d; rfl
  | cons e rest ih =>
    intro d
    rw [buildMediaDict, List.foldl_cons, List.filter_cons]
    by_cases he : e.isMedia = true
    · rw [if_pos he, buildMediaDict, List.foldl_cons]
      exact ih (mediaDictStep d e)
    · rw [if_neg he]
      have : mediaDictStep d e = d := by
        unfold mediaDictStep
        rw [if_neg he]
      rw [this]
      exact ih d

/-- The values of the media dict built from a list of media entries are
exactly the last occurrences per media id. -/
theorem buildMediaDict_values_mem (ml : List Entry)
    (hml : ∀ e ∈ ml, e.isMedia = true) (x : Entry) :
    x ∈ dictValues (buildMediaDict [] ml) ↔
      (ml.filter (fun e => decide (e.mediaId = x.mediaId))).getLast? = some x := by
  induction ml using List.reverseRecOn with
  | nil => simp [buildMediaDict, dictValues]
  | append_singleton ml e ih =>
    have hme : e.isMedia = true := hml e (by simp)
    have hml2 : ∀ u ∈ ml, u.isMedia = true := fun u hu => hml u (by simp [hu])
    have hstep : buildMediaDict [] (ml ++ [e])
        = dictInsert (buildMediaDict [] ml) e.mediaId e := by
      rw [buildMediaDict, List.foldl_append]
      simp only [List.foldl_cons, List.foldl_nil]
      rw [buildMediaDict]
      unfold mediaDictStep
      rw [if_pos hme]
    rw [hstep, dictInsert_values_mem _ _ _ _
      (buildMediaDict_inv ml [] ⟨by simp, by simp⟩)]
    rw [List.filter_append]
    by_cases hid : e.mediaId = x.mediaId
    · have : [e].filter (fun u => decide (u.mediaId = x.mediaId)) = [e] := by
        simp [hid]
      rw [this, List.getLast?_concat]
      constructor
      · rintro (rfl | ⟨-, hxk⟩)
        · rfl
        · exact absurd hid.symm hxk
      · intro h
        injection h with h
        exact Or.inl h.symm
    · have : [e].filter (fun u => decide (u.mediaId = x.mediaId)) = [] := by
        simp [hid]
      rw [this, List.append_nil, ← ih hml2]
      constructor
      · rintro (rfl | ⟨hx, -⟩)
        · exact absurd rfl hid
        · exact hx
      · intro hx
        right
        refine ⟨hx, fun hxe => hid hxe.symm⟩

/-- dictInsert never yields an empty dict. -/
theorem dictInsert_ne_nil (d : List (Chars × Entry)) (k : Chars) (v : Entry) :
    dictInsert d k v ≠ [] := by
  unfold dictInsert
  split
  · rename_i hany
    intro hd
    rw [List.map_eq_nil_iff] at hd
    subst hd
    simp at hany
  · simp

/-- Folding the media tracking never empties a nonempty dict. -/
theorem buildMediaDict_ne_nil_of_ne (ml : List Entry) :
    ∀ d, d ≠ [] → buildMediaDict d ml ≠ [] := by
  induction ml with
  | nil => intro d h; exact h
  | cons e rest ih =>
    intro d h
    rw [buildMediaDict, List.foldl_cons]
    refine ih _ ?_
    unfold mediaDictStep
    split
    · exact dictInsert_ne_nil d e.mediaId e
    · exact h

/-- The media dict of a list of media entries is empty exactly when the list
is. -/
theorem buildMediaDict_eq_nil_iff (ml : List Entry) :
    buildMediaDict [] ml = [] ↔ ml.filter (fun e => e.isMedia) = [] := by
  rw [buildMediaDict_filter_media]
  constructor
  · intro h
    by_contra hne
    rcases List.exists_cons_of_ne_nil hne with ⟨e, rest, hc⟩
    rw [hc] at h
    have hmedia : e.isMedia = true := by
      have : e ∈ ml.filter (fun e => e.isMedia) := by rw [hc]; simp
      exact (List.mem_filter.mp this).2
    rw [buildMediaDict, List.foldl_cons] at h
    refine buildMediaDict_ne_nil_of_ne rest _ ?_ h
    unfold mediaDictStep
    rw [if_pos hmedia]
    exact dictInsert_ne_nil [] e.mediaId e
  · intro h
    rw [h]
    rfl

/-- C9: on a forward-moving reader over a well-formed (sorted) recording —
state: not-yet-returned entries current :: remaining all sorted, end not yet
reached, requested t at or past the previous request — get_records_until(t)
returns a list sorted by time_delta containing exactly the not-yet-returned
entries with time_delta < t, where every non-media entry older than t − 3 s
is pruned but, per media channel id, the latest media entry older than
t − 3 s is still included. -/
theorem c9_get_records_until (all R : List Entry) (c : Option Entry) (prev t : ℚ)
    (hsorted : EntrySorted (c.toList ++ R)) (hprev : prev ≤ t) :
    EntrySorted (getRecordsUntil ⟨all, R, c, prev, false⟩ t).2 ∧
    ∀ e, e ∈ (getRecordsUntil ⟨all, R, c, prev, false⟩ t).2 ↔
      (e ∈ c.toList ++ R ∧ e.timeDelta < t ∧
        (t - 3 ≤ e.timeDelta ∨
          (e.isMedia = true ∧
            mediaPrunedLatest (c.toList ++ R) t e.mediaId = some e))) := by
  have hres : (getRecordsUntil ⟨all, R, c, prev, false⟩ t).2
      = (if ((recordsLoop t 3 R c [] []).2.1).isEmpty
          then (recordsLoop t 3 R c [] []).1
          else sortByTd ((recordsLoop t 3 R c [] []).1
            ++ dictValues (recordsLoop t 3 R c [] []).2.1)) := by
    unfold getRecordsUntil
    dsimp only
    rw [if_neg (not_lt.mpr hprev)]
    dsimp only
    rw [if_neg Bool.false_ne_true]
  have hpair := recordsLoop_eq_foldl t 3 R c [] [] (fun _ => rfl)
  rw [takeWhile_lt_eq_filter t _ hsorted] at hpair
  have hLsorted : EntrySorted ((c.toList ++ R).filter
      (fun e => decide (e.timeDelta < t))) :=
    List.Pairwise.sublist (List.filter_sublist _) hsorted
  have hbm_nil : ∀ d : List (Chars × Entry), buildMediaDict d [] = d := fun _ => rfl
  have hfold := foldl_appendPrune t 3
    ((c.toList ++ R).filter (fun e => decide (e.timeDelta < t))) []
    (by simpa using hLsorted)
  simp only [List.filter_nil, hbm_nil, List.nil_append] at hfold
  rw [hfold] at hpair
  rw [Prod.mk.injEq] at hpair
  obtain ⟨h1, h2⟩ := hpair
  -- The media dict is built from exactly the pruned media entries.
  have hM : buildMediaDict []
      (((c.toList ++ R).filter (fun e => decide (e.timeDelta < t))).filter
        (fun e => decide (e.timeDelta < t - 3)))
      = buildMediaDict []
          ((c.toList ++ R).filter
            (fun e => e.isMedia && decide (e.timeDelta < t - 3))) := by
    rw [buildMediaDict_filter_media]
    congr 1
    rw [List.filter_filter, List.filter_filter]
    refine List.filter_congr ?_
    intro x _
    by_cases ho : x.timeDelta < t - 3
    · have hl : x.timeDelta < t := by linarith
      simp [ho, hl]
    · simp [ho]
  rw [hM] at h2
  have hMmedia : ∀ e ∈ (c.toList ++ R).filter
      (fun e => e.isMedia && decide (e.timeDelta < t - 3)), e.isMedia = true := by
    intro e he
    have := (List.mem_filter.mp he).2
    exact (Bool.and_eq_true_iff.mp this).1
  -- Membership in the kept records.
  have hmemKeep : ∀ e, e ∈ (recordsLoop t 3 R c [] []).1 ↔
      (e ∈ c.toList ++ R ∧ e.timeDelta < t ∧ t - 3 ≤ e.timeDelta) := by
    intro e
    rw [h1, List.mem_filter, List.mem_filter]
    constructor
    · rintro ⟨⟨hp, hlt⟩, hk⟩
      rw [decide_eq_true_eq] at hlt
      simp only [Bool.not_eq_eq_eq_not, Bool.not_true, decide_eq_false_iff_not, not_lt] at hk
      exact ⟨hp, hlt, hk⟩
    · rintro ⟨hp, hlt, hk⟩
      refine ⟨⟨hp, by simpa using hlt⟩, ?_⟩
      simp only [Bool.not_eq_eq_eq_not, Bool.not_true, decide_eq_false_iff_not, not_lt]
      exact hk
  -- Membership in the pruned-media values.
  have hmemVals : ∀ e, e ∈ dictValues (recordsLoop t 3 R c [] []).2.1 ↔
      mediaPrunedLatest (c.toList ++ R) t e.mediaId = some e := by
    intro e
    rw [h2, buildMediaDict_values_mem _ hMmedia e]
    rfl
  have hValsSide : ∀ e, mediaPrunedLatest (c.toList ++ R) t e.mediaId = some e →
      e ∈ c.toList ++ R ∧ e.timeDelta < t - 3 ∧ e.isMedia = true := by
    intro e he
    have hmem := List.mem_of_getLast?_eq_some he
    have hmem2 := List.mem_filter.mp hmem
    have hmem3 := List.mem_filter.mp hmem2.1
    obtain ⟨hmedia, hold⟩ := Bool.and_eq_true_iff.mp hmem3.2
    rw [decide_eq_true_eq] at hold
    exact ⟨hmem3.1, hold, hmedia⟩
  rw [hres]
  by_cases hMnil : (c.toList ++ R).filter
      (fun e => e.isMedia && decide (e.timeDelta < t - 3)) = []
  · have hd : (recordsLoop t 3 R c [] []).2.1 = [] := by
      rw [h2, hMnil]
      rfl
    rw [hd]
    simp only [List.isEmpty_nil, if_true]
    constructor
    · rw [h1]
      exact List.Pairwise.sublist (List.filter_sublist _) hLsorted
    · intro e
      rw [hmemKeep e]
      constructor
      · rintro ⟨hp, hlt, hk⟩
        exact ⟨hp, hlt, Or.inl hk⟩
      · rintro ⟨hp, hlt, hk | ⟨-, hlatest⟩⟩
        · exact ⟨hp, hlt, hk⟩
        · rw [mediaPrunedLatest, hMnil] at hlatest
          simp at hlatest
  · have hd : ((recordsLoop t 3 R c [] []).2.1).isEmpty = false := by
      rw [h2]
      rw [List.isEmpty_eq_false]
      intro hnil
      rw [buildMediaDict_eq_nil_iff] at hnil
      rw [List.filter_eq_self.mpr hMmedia] at hnil
      exact hMnil hnil
    rw [hd]
    simp only [Bool.false_eq_true, if_false]
    refine ⟨sorted_sortByTd _, ?_⟩
    intro e
    rw [mem_sortByTd, List.mem_append, hmemKeep e, hmemVals e]
    constructor
    · rintro (⟨hp, hlt, hk⟩ | hlatest)
      · exact ⟨hp, hlt, Or.inl hk⟩
      · obtain ⟨hp, hold, hmedia⟩ := hValsSide e hlatest
        exact ⟨hp, by linarith, Or.inr ⟨hmedia, hlatest⟩⟩
    · rintro ⟨hp, hlt, hk | ⟨-, hlatest⟩⟩
      · exact Or.inl ⟨hp, hlt, hk⟩
      · exact Or.inr hlatest

/-- Witness for C9 on a fresh reader with t = 10: the inputs at 1 and 5 and
the stale media events are pruned, the latest channel-A media event and the
input at 9 are returned in order. -/
theorem c9_get_records_until_witness :
    EntrySorted (getRecordsUntil
      ⟨c9WitnessEntries, c9WitnessEntries, none, 0, false⟩ 10).2 ∧
    ∀ e, e ∈ (getRecordsUntil
        ⟨c9WitnessEntries, c9WitnessEntries, none, 0, false⟩ 10).2 ↔
      (e ∈ (none : Option Entry).toList ++ c9WitnessEntries ∧ e.timeDelta < 10 ∧
        (10 - 3 ≤ e.timeDelta ∨
          (e.isMedia = true ∧
            mediaPrunedLatest ((none : Option Entry).toList ++ c9WitnessEntries)
              10 e.mediaId = some e))) :=
  c9_get_records_until c9WitnessEntries c9WitnessEntries none 0 10
    (by unfold EntrySorted; decide) (by decide)

/-! ## C5: lemmas about merge_recordings -/

/-- with_offset shifts the time delta by the offset. -/
theorem timeDelta_withOffset (off : ℚ) (e : Entry) :
    (e.withOffset off).timeDelta = e.timeDelta + off := by
  cases e <;> rfl

/-- with_offset preserves serializability (it preserves the variant). -/
theorem toRecordStr_withOffset (off : ℚ) (e : Entry) (h : e.toRecordStr ≠ none) :
    (e.withOffset off).toRecordStr ≠ none := by
  cases e <;> simp [Entry.withOffset, Entry.toRecordStr] at h ⊢

/-- with_offset preserves sortedness. -/
theorem sorted_map_withOffset (off : ℚ) (l : List Entry) (h : EntrySorted l) :
    EntrySorted (l.map (Entry.withOffset off)) := by
  refine List.Pairwise.map _ ?_ h
  intro a b hab
  rw [timeDelta_withOffset, timeDelta_withOffset]
  linarith

/-- Refilling a slot does not change what the reader still owes. -/
theorem readerPending_fillSlot (r : MergeReader) :
    readerPending (fillSlot r) = readerPending r := by
  rcases r with ⟨rem, slot, off⟩
  cases slot <;> cases rem <;> simp [fillSlot, readerPending]

/-- Refilling preserves the loop variant. -/
theorem mergeMeasure_fillSlots (rs : List MergeReader) :
    mergeMeasure (fillSlots rs) = mergeMeasure rs := by
  unfold mergeMeasure fillSlots
  rw [List.map_map]
  congr 1
  refine List.map_congr_left ?_
  intro r _
  rcases r with ⟨rem, slot, off⟩
  cases slot <;> cases rem <;> simp [fillSlot]

/-- After refilling, an empty slot means the reader is exhausted. -/
theorem readerPending_of_slot_none (r : MergeReader)
    (h : (fillSlot r).slot = none) : readerPending (fillSlot r) = [] := by
  rcases r with ⟨rem, slot, off⟩
  cases slot <;> cases rem <;> simp_all [fillSlot, readerPending]

/-- If the scan finds nothing, every slot is empty. -/
theorem findOldest_none (rs : List MergeReader) (h : findOldest rs = none) :
    ∀ r ∈ rs, r.slot = none := by
  induction rs with
  | nil => simp
  | cons r rs ih =>
    intro r2 hr2
    unfold findOldest at h
    rcases hs : r.slot with - | e0 <;> rw [hs] at h <;>
      rcases hf : findOldest rs with - | ⟨j, be⟩ <;> rw [hf] at h <;> dsimp only at h
    · rcases List.mem_cons.mp hr2 with rfl | hr2
      · exact hs
      · exact ih hf r2 hr2
    · exact absurd h (by simp)
    · exact absurd h (by simp)
    · split at h <;> exact absurd h (by simp)

/-- The scan result has the minimal delta among all pending slots. -/
theorem findOldest_min (rs : List MergeReader) :
    ∀ i e, findOldest rs = some (i, e) →
    ∀ r ∈ rs, ∀ e2, r.slot = some e2 → e.timeDelta ≤ e2.timeDelta := by
  induction rs with
  | nil => simp [findOldest]
  | cons r rs ih =>
    intro i e h r2 hr2 e2 hs2
    unfold findOldest at h
    rcases hs : r.slot with - | e0 <;> rw [hs] at h <;>
      rcases hf : findOldest rs with - | ⟨j, be⟩ <;> rw [hf] at h <;> dsimp only at h
    · exact absurd h (by simp)
    · injection h with h2
      injection h2 with h2a h2b
      subst h2b
      rcases List.mem_cons.mp hr2 with rfl | hr2
      · rw [hs] at hs2; cases hs2
      · exact ih j be hf r2 hr2 e2 hs2
    · injection h with h2
      injection h2 with h2a h2b
      subst h2b
      rcases List.mem_cons.mp hr2 with rfl | hr2
      · rw [hs] at hs2
        injection hs2 with hs2
        subst hs2
        exact le_rfl
      · exact absurd hs2 (by rw [findOldest_none rs hf r2 hr2]; simp)
    · split at h <;> (injection h with h2; injection h2 with h2a h2b; subst h2b)
      · rename_i hlt
        rcases List.mem_cons.mp hr2 with rfl | hr2
        · rw [hs] at hs2
          injection hs2 with hs2
          subst hs2
          exact le_of_lt hlt
        · exact ih j be hf r2 hr2 e2 hs2
      · rename_i hnlt
        rcases List.mem_cons.mp hr2 with rfl | hr2
        · rw [hs] at hs2
          injection hs2 with hs2
          subst hs2
          exact le_rfl
        · calc e0.timeDelta ≤ be.timeDelta := not_lt.mp hnlt
            _ ≤ e2.timeDelta := ih j be hf r2 hr2 e2 hs2

/-- The scan result decomposes the reader list at the found index, and
clearing that index empties exactly that slot. -/
theorem findOldest_decomp (rs : List MergeReader) :
    ∀ i e, findOldest rs = some (i, e) →
    ∃ pre r post, rs = pre ++ r :: post ∧ r.slot = some e ∧
      clearSlot rs i = pre ++ ({ r with slot := none } :: post) := by
  induction rs with
  | nil => simp [findOldest]
  | cons r rs ih =>
    intro i e h
    unfold findOldest at h
    rcases hs : r.slot with - | e0 <;> rw [hs] at h <;>
      rcases hf : findOldest rs with - | ⟨j, be⟩ <;> rw [hf] at h <;> dsimp only at h
    · exact absurd h (by simp)
    · injection h with h2
      injection h2 with h2a h2b
      subst h2a
      subst h2b
      obtain ⟨pre, r0, post, hrs, hslot, hclear⟩ := ih j be hf
      exact ⟨r :: pre, r0, post, by rw [hrs]; rfl, hslot, by simp [clearSlot, hclear]⟩
    · injection h with h2
      injection h2 with h2a h2b
      subst h2a
      subst h2b
      exact ⟨[], r, rs, rfl, hs, rfl⟩
    · split at h <;> (injection h with h2; injection h2 with h2a h2b; subst h2a; subst h2b)
      · obtain ⟨pre, r0, post, hrs, hslot, hclear⟩ := ih j be hf
        exact ⟨r :: pre, r0, post, by rw [hrs]; rfl, hslot, by simp [clearSlot, hclear]⟩
      · exact ⟨[], r, rs, rfl, hs, rfl⟩

/-- A sorted list is bounded below by its head. -/
theorem entrySorted_head_le (e : Entry) (l : List Entry)
    (h : EntrySorted (e :: l)) : ∀ x ∈ e :: l, e.timeDelta ≤ x.timeDelta := by
  rw [EntrySorted, List.pairwise_cons] at h
  intro x hx
  rcases List.mem_cons.mp hx with rfl | hx
  · exact le_rfl
  · exact h.1 x hx

/-- The merge loop, run with enough fuel on sorted, serializable readers,
terminates successfully with a sorted output whose deltas are all bounded by
the final ending delta, which is attained by the last emitted entry. -/
theorem mergeLoop_ok (fuel : ℕ) :
    ∀ (rs : List MergeReader) (acc : List Entry) (ending : ℚ),
    mergeMeasure rs < fuel →
    (∀ r ∈ rs, EntrySorted (readerPending r)) →
    (∀ r ∈ rs, ∀ e ∈ readerPending r, ∀ a ∈ acc, a.timeDelta ≤ e.timeDelta) →
    EntrySorted acc →
    (∀ a ∈ acc, a.timeDelta ≤ ending) →
    (∀ r ∈ rs, ∀ e ∈ readerPending r, e.toRecordStr ≠ none) →
    ((acc = [] ∧ ending = -1) ∨ ∃ last ∈ acc, ending = last.timeDelta) →
    ∃ entries ending2, mergeLoop fuel rs acc ending = .ok entries ending2 ∧
      EntrySorted entries ∧ (∀ a ∈ entries, a.timeDelta ≤ ending2) ∧
      ((entries = [] ∧ ending2 = -1) ∨ ∃ last ∈ entries, ending2 = last.timeDelta) := by
  induction fuel with
  | zero => intro rs acc ending hm; exact absurd hm (Nat.not_lt_zero _)
  | succ fuel ih =>
    intro rs acc ending hm hsl hdom hacc haccle hser hend
    have hfillmem : ∀ r ∈ fillSlots rs, ∃ r0 ∈ rs, r = fillSlot r0 := by
      intro r hr
      rcases List.mem_map.mp hr with ⟨r0, h0, rfl⟩
      exact ⟨r0, h0, rfl⟩
    have hslF : ∀ r ∈ fillSlots rs, EntrySorted (readerPending r) := by
      intro r hr
      obtain ⟨r0, h0, rfl⟩ := hfillmem r hr
      rw [readerPending_fillSlot]
      exact hsl r0 h0
    have hdomF : ∀ r ∈ fillSlots rs, ∀ e ∈ readerPending r, ∀ a ∈ acc,
        a.timeDelta ≤ e.timeDelta := by
      intro r hr
      obtain ⟨r0, h0, rfl⟩ := hfillmem r hr
      rw [readerPending_fillSlot]
      exact hdom r0 h0
    have hserF : ∀ r ∈ fillSlots rs, ∀ e ∈ readerPending r, e.toRecordStr ≠ none := by
      intro r hr
      obtain ⟨r0, h0, rfl⟩ := hfillmem r hr
      rw [readerPending_fillSlot]
      exact hser r0 h0
    rcases hf : findOldest (fillSlots rs) with - | ⟨i, e⟩
    · refine ⟨acc, ending, ?_, hacc, haccle, hend⟩
      simp only [mergeLoop, hf]
    · obtain ⟨pre, r0, post, hfilled, hslot, hclear⟩ := findOldest_decomp _ i e hf
      have hr0mem : r0 ∈ fillSlots rs := by
        rw [hfilled]
        exact List.mem_append_right _ (List.mem_cons_self _ _)
      have hpend0 : readerPending r0
          = e :: r0.remaining.map (Entry.withOffset r0.offset) := by
        rw [readerPending, hslot]
        rfl
      have hs0 := hslF r0 hr0mem
      have hheadmem : e ∈ readerPending r0 := by
        rw [hpend0]
        exact List.mem_cons_self _ _
      have heser : e.toRecordStr ≠ none := hserF r0 hr0mem e hheadmem
      rcases hE : e.toRecordStr with - | s
      · exact absurd hE heser
      have hpc : readerPending { r0 with slot := none }
          = r0.remaining.map (Entry.withOffset r0.offset) := by
        rw [readerPending]
        rfl
      have hmem2 : ∀ r ∈ clearSlot (fillSlots rs) i,
          r ∈ fillSlots rs ∨ r = { r0 with slot := none } := by
        intro r hr
        rw [hclear] at hr
        rcases List.mem_append.mp hr with h | h
        · left
          rw [hfilled]
          exact List.mem_append_left _ h
        · rcases List.mem_cons.mp h with rfl | h
          · right; rfl
          · left
            rw [hfilled]
            exact List.mem_append_right _ (List.mem_cons_of_mem _ h)
      have hmin : ∀ r ∈ fillSlots rs, ∀ e2 ∈ readerPending r,
          e.timeDelta ≤ e2.timeDelta := by
        intro r hr e2 he2
        rcases hslot2 : r.slot with - | eh
        · obtain ⟨r0b, h0b, rfl⟩ := hfillmem r hr
          rw [readerPending_of_slot_none r0b hslot2] at he2
          cases he2
        · have hhead := findOldest_min (fillSlots rs) i e hf r hr eh hslot2
          have hshape : readerPending r
              = eh :: r.remaining.map (Entry.withOffset r.offset) := by
            rw [readerPending, hslot2]
            rfl
          have hsr := hslF r hr
          rw [hshape] at hsr he2
          exact le_trans hhead (entrySorted_head_le eh _ hsr e2 he2)
      have htail0 : EntrySorted (r0.remaining.map (Entry.withOffset r0.offset)) := by
        rw [hpend0, EntrySorted, List.pairwise_cons] at hs0
        exact hs0.2
      have hdomE : ∀ a ∈ acc, a.timeDelta ≤ e.timeDelta :=
        fun a ha => hdomF r0 hr0mem e hheadmem a ha
      have hstep : mergeLoop (fuel + 1) rs acc ending
          = mergeLoop fuel (clearSlot (fillSlots rs) i) (acc ++ [e]) e.timeDelta := by
        simp only [mergeLoop, hf, hE]
      rw [hstep]
      refine ih (clearSlot (fillSlots rs) i) (acc ++ [e]) e.timeDelta ?_ ?_ ?_ ?_ ?_ ?_ ?_
      · have hmeq : mergeMeasure (clearSlot (fillSlots rs) i) + 1 = mergeMeasure rs := by
          rw [hclear, ← mergeMeasure_fillSlots rs, hfilled]
          simp only [mergeMeasure, List.map_append, List.sum_append, List.map_cons,
            List.sum_cons, hslot]
          omega
        omega
      · intro r hr
        rcases hmem2 r hr with h | rfl
        · exact hslF r h
        · rw [hpc]
          exact htail0
      · intro r hr e2 he2 a ha
        have hkey : e.timeDelta ≤ e2.timeDelta ∧ ∀ a2 ∈ acc, a2.timeDelta ≤ e2.timeDelta := by
          rcases hmem2 r hr with h | rfl
          · exact ⟨hmin r h e2 he2, fun a2 ha2 => hdomF r h e2 he2 a2 ha2⟩
          · rw [hpc] at he2
            have he2mem : e2 ∈ readerPending r0 := by
              rw [hpend0]
              exact List.mem_cons_of_mem _ he2
            refine ⟨?_, fun a2 ha2 => hdomF r0 hr0mem e2 he2mem a2 ha2⟩
            rw [hpend0] at hs0
            exact entrySorted_head_le e _ hs0 e2 (List.mem_cons_of_mem _ he2)
        rcases List.mem_append.mp ha with ha | ha
        · exact hkey.2 a ha
        · rcases List.mem_singleton.mp ha with rfl
          exact hkey.1
      · rw [EntrySorted, List.pairwise_append]
        refine ⟨hacc, by simp, ?_⟩
        intro a ha b hb
        rcases List.mem_singleton.mp hb with rfl
        exact hdomE a ha
      · intro a ha
        rcases List.mem_append.mp ha with ha | ha
        · exact hdomE a ha
        · rcases List.mem_singleton.mp ha with rfl
          exact le_rfl
      · intro r hr e2 he2
        rcases hmem2 r hr with h | rfl
        · exact hserF r h e2 he2
        · rw [hpc] at he2
          exact hserF r0 hr0mem e2 (by rw [hpend0]; exact List.mem_cons_of_mem _ he2)
      · exact Or.inr ⟨e, by simp, rfl⟩

/-- Membership in a stable insertion by start time. -/
theorem mem_insertByStart (x y : ℚ × List Entry) (l : List (ℚ × List Entry)) :
    y ∈ insertByStart x l ↔ y = x ∨ y ∈ l := by
  induction l with
  | nil => simp [insertByStart]
  | cons z zs ih =>
    unfold insertByStart
    split
    · simp [List.mem_cons]
    · simp only [List.mem_cons, ih]
      tauto

/-- Membership in readers.sort(). -/
theorem mem_sortByStart (y : ℚ × List Entry) (l : List (ℚ × List Entry)) :
    y ∈ sortByStart l ↔ y ∈ l := by
  induction l with
  | nil => simp [sortByStart]
  | cons z zs ih =>
    simp only [sortByStart, List.foldr_cons]
    rw [mem_insertByStart]
    simp only [sortByStart] at ih
    rw [ih, List.mem_cons]

/-- Insertion by start time preserves sortedness. -/
theorem sorted_insertByStart (x : ℚ × List Entry) (l : List (ℚ × List Entry))
    (hs : List.Pairwise (fun a b => a.1 ≤ b.1) l) :
    List.Pairwise (fun a b => a.1 ≤ b.1) (insertByStart x l) := by
  induction l with
  | nil => simp [insertByStart]
  | cons z zs ih =>
    rw [List.pairwise_cons] at hs
    unfold insertByStart
    split
    · rename_i hle
      rw [List.pairwise_cons]
      refine ⟨?_, List.pairwise_cons.mpr hs⟩
      intro q hq
      rcases List.mem_cons.mp hq with rfl | hq
      · exact hle
      · exact le_trans hle (hs.1 q hq)
    · rename_i hgt
      rw [List.pairwise_cons]
      refine ⟨?_, ih hs.2⟩
      intro q hq
      rcases (mem_insertByStart x q zs).mp hq with rfl | hq
      · exact le_of_lt (lt_of_not_le hgt)
      · exact hs.1 q hq

/-- readers.sort() sorts by recording start. -/
theorem sorted_sortByStart (l : List (ℚ × List Entry)) :
    List.Pairwise (fun a b => a.1 ≤ b.1) (sortByStart l) := by
  induction l with
  | nil => simp [sortByStart]
  | cons z zs ih => exact sorted_insertByStart z (sortByStart zs) ih

/-- readers.sort() of a nonempty list is nonempty. -/
theorem sortByStart_ne_nil (l : List (ℚ × List Entry)) (h : l ≠ []) :
    sortByStart l ≠ [] := by
  rcases List.exists_cons_of_ne_nil h with ⟨x, rest, rfl⟩
  intro hnil
  have : x ∈ sortByStart (x :: rest) := (mem_sortByStart x _).mpr (by simp)
  rw [hnil] at this
  cases this

/-- C5 counterexample: merging a single well-formed (sorted, non-empty set)
recording that contains a media-play entry does not write entries at all —
EntryMediaPlay.to_record_str raises, so the merge dies with an exception
instead of producing the claimed ordered output. -/
theorem c5_merge_mediaplay_counterexample :
    mergeRecordings
        [(0, [Entry.mediaPlay 0 0 MEDIA_DEFAULT_ID (-54321 / 10000) (chars "/m.mp4")])]
      = .serializeError ∧
    ([(0, [Entry.mediaPlay 0 0 MEDIA_DEFAULT_ID (-54321 / 10000) (chars "/m.mp4")])]
        : List (ℚ × List Entry)) ≠ [] ∧
    ∀ p ∈ ([(0, [Entry.mediaPlay 0 0 MEDIA_DEFAULT_ID (-54321 / 10000)
        (chars "/m.mp4")])] : List (ℚ × List Entry)), List.Pairwise
          (fun a b => Entry.timeDelta a ≤ Entry.timeDelta b) p.2 := by
  refine ⟨by decide, by decide, by decide⟩

/-- C5 amended: for every non-empty set of well-formed recordings (each
sorted by time delta) containing no media-play entries (whose serializer is
broken, see C1), merge_recordings succeeds; the output header is the
earliest recording start, the entries appear in non-decreasing
offset-adjusted time-delta order, and the footer equals the header plus the
ending delta, which bounds every emitted delta and is attained by the last
emitted entry (or is −1 when nothing was emitted). -/
theorem c5_merge_sorted (recordings : List (ℚ × List Entry))
    (hne : recordings ≠ [])
    (hsorted : ∀ p ∈ recordings, EntrySorted p.2)
    (hser : ∀ p ∈ recordings, ∀ e ∈ p.2, e.toRecordStr ≠ none) :
    ∃ header entries ending,
      mergeRecordings recordings = .ok header entries (header + ending) ∧
      (∃ p ∈ recordings, header = p.1) ∧
      (∀ q ∈ recordings, header ≤ q.1) ∧
      EntrySorted entries ∧
      (∀ a ∈ entries, a.timeDelta ≤ ending) ∧
      ((entries = [] ∧ ending = -1) ∨ ∃ last ∈ entries, ending = last.timeDelta) := by
  obtain ⟨x, rest, rfl⟩ := List.exists_cons_of_ne_nil hne
  obtain ⟨h0, tl, hsEq⟩ :=
    List.exists_cons_of_ne_nil (sortByStart_ne_nil (x :: rest) (by simp))
  have hsortedS := sorted_sortByStart (x :: rest)
  rw [hsEq] at hsortedS
  have hmemS : ∀ p, p ∈ h0 :: tl ↔ p ∈ x :: rest := by
    intro p
    rw [← hsEq, mem_sortByStart]
  have hrun := mergeLoop_ok
    (mergeMeasure ((h0 :: tl).map
      (fun p => (⟨p.2, none, p.1 - h0.1⟩ : MergeReader))) + 1)
    ((h0 :: tl).map (fun p => (⟨p.2, none, p.1 - h0.1⟩ : MergeReader)))
    [] (-1) (Nat.lt_succ_self _)
    (by
      intro r hr
      rcases List.mem_map.mp hr with ⟨p, hp, rfl⟩
      rw [readerPending]
      exact sorted_map_withOffset _ _ (hsorted p ((hmemS p).mp hp)))
    (by intro r hr e he a ha; cases ha)
    List.Pairwise.nil
    (by intro a ha; cases ha)
    (by
      intro r hr e he
      rcases List.mem_map.mp hr with ⟨p, hp, rfl⟩
      rw [readerPending] at he
      simp only [Option.toList_none, List.nil_append] at he
      rcases List.mem_map.mp he with ⟨e0, he0, rfl⟩
      exact toRecordStr_withOffset _ _ (hser p ((hmemS p).mp hp) e0 he0))
    (Or.inl ⟨rfl, rfl⟩)
  obtain ⟨entries, ending2, hloop, hEsorted, hEle, hEend⟩ := hrun
  refine ⟨h0.1, entries, ending2, ?_, ⟨h0, (hmemS h0).mp (by simp), rfl⟩, ?_,
    hEsorted, hEle, hEend⟩
  · simp only [mergeRecordings]
    rw [hsEq]
    simp only [List.headD_cons]
    rw [hloop]
  · intro q hq
    rcases List.mem_cons.mp ((hmemS q).mpr hq) with rfl | hq2
    · exact le_rfl
    · rw [List.pairwise_cons] at hsortedS
      exact hsortedS.1 q hq2

/-- Witness for C5 amended on two concrete overlapping recordings. -/
theorem c5_merge_sorted_witness :
    ∃ header entries ending,
      mergeRecordings c5WitnessRecordings = .ok header entries (header + ending) ∧
      (∃ p ∈ c5WitnessRecordings, header = p.1) ∧
      (∀ q ∈ c5WitnessRecordings, header ≤ q.1) ∧
      EntrySorted entries ∧
      (∀ a ∈ entries, a.timeDelta ≤ ending) ∧
      ((entries = [] ∧ ending = -1) ∨ ∃ last ∈ entries, ending = last.timeDelta) :=
  c5_merge_sorted c5WitnessRecordings (by decide)
    (by
      intro p hp
      unfold EntrySorted
      rcases List.mem_cons.mp hp with rfl | hp
      · decide
      · rcases List.mem_cons.mp hp with rfl | hp
        · decide
        · cases hp)
    (by decide)

/-! ## C2: chunk handling in the server -/

/-- C2 counterexample: a single read containing the two CRLF-terminated
commands ver and quit is NOT handled as two commands.  data_received strips
the whole chunk to "ver\r\nquit", which matches no command, so the server
answers with one INVALID_REQUEST + help reply and keeps the connection open
(handling them separately would reply the version string and then ACK). -/
theorem c2_chunk_not_split_counterexample :
    (serverDataReceived none 0 (chars "ver\r\nquit\r\n")).sends
        = [REPLY_INVALID ++ chars "\r\n" ++ helpMsg] ∧
    (serverDataReceived none 0 (chars "ver\r\nquit\r\n")).keepAlive = true ∧
    (serverDataReceived none 0 (chars "ver")).sends = [PROTOCOL_VERSION] ∧
    (serverDataReceived none 0 (chars "quit")).sends = [REPLY_GOOD] ∧
    (serverDataReceived none 0 (chars "ver\r\nquit\r\n")).sends ≠
      (serverDataReceived none 0 (chars "ver")).sends
        ++ (serverDataReceived none 0 (chars "quit")).sends := by
  refine ⟨rfl, rfl, rfl, rfl, ?_⟩
  decide

/-- C2 amended: the server performs no line splitting at all — every chunk
delivered to data_received is stripped of surrounding whitespace and
interpreted as one single command, and exactly one reply is initiated per
chunk, whatever the chunk contains. -/
theorem c2_one_reply_per_chunk (prevTxh : Option ℚ) (now : ℚ) (data : Chars) :
    (serverDataReceived prevTxh now data).sends.length = 1 := by
  simp only [serverDataReceived]
  repeat' split <;> try rfl

/-! ## C6: clamping and rounding on both sides -/

/-- The clamp/round expression produces a value in [0, 1] on the 6-decimal
grid. -/
theorem capRound6_spec (v : ℚ) :
    0 ≤ capRound6 v ∧ capRound6 v ≤ 1 ∧ onSixDecimalGrid (capRound6 v) := by
  unfold capRound6 pyRound PROTOCOL_HAPTICS_PRECISION
  refine ⟨le_min (by norm_num) (le_max_left _ _), min_le_left _ _, ?_⟩
  rcases max_choice (0 : ℚ) ((pyRoundInt (v * 10 ^ 6) : ℚ) / 10 ^ 6) with h | h <;> rw [h]
  · rcases min_choice (1 : ℚ) (0 : ℚ) with h2 | h2 <;> rw [h2]
    · exact ⟨10 ^ 6, by norm_num⟩
    · exact ⟨0, by norm_num⟩
  · rcases min_choice (1 : ℚ) ((pyRoundInt (v * 10 ^ 6) : ℚ) / 10 ^ 6) with h2 | h2 <;> rw [h2]
    · exact ⟨10 ^ 6, by norm_num⟩
    · exact ⟨pyRoundInt (v * 10 ^ 6), rfl⟩

/-- Every value a successful parseCapList produces is some capRound6 v. -/
theorem parseCapList_mem (fields : List Chars) (vs : List ℚ)
    (h : parseCapList fields = some vs) :
    ∀ x ∈ vs, ∃ v, x = capRound6 v := by
  induction fields generalizing vs with
  | nil =>
    simp only [parseCapList, Option.some.injEq] at h
    subst h; simp
  | cons f fs ih =>
    simp only [parseCapList, Option.bind_eq_bind, Option.bind_eq_some] at h
    obtain ⟨v, _, rest, hrest, hvs⟩ := h
    injection hvs with hvs
    subst hvs
    intro x hx
    rcases List.mem_cons.mp hx with hx | hx
    · exact ⟨v, hx⟩
    · exact ih rest hrest x hx

/-- C6: every intensity the client transmits in a txh payload, and every
intensity vector the server dispatches to the haptics-updated callback, is
clamped into [0, 1] and lies on the 6-decimal grid — the clamp/round
expression is applied independently at both sites. -/
theorem c6_clamped_and_rounded_both_sides :
    (∀ (s : ClientState) (now : ℚ) (req : Option (List ℚ)) (s2 : ClientState)
        (capped : List ℚ),
      clientSendHapticsData s now req = (s2, .sent capped) →
      ∀ x ∈ capped, 0 ≤ x ∧ x ≤ 1 ∧ onSixDecimalGrid x) ∧
    (∀ (prevTxh : Option ℚ) (now : ℚ) (data : Chars) (vs : List ℚ),
      (serverDataReceived prevTxh now data).txhValues = some vs →
      ∀ x ∈ vs, 0 ≤ x ∧ x ≤ 1 ∧ onSixDecimalGrid x) := by
  constructor
  · intro s now req s2 capped h x hx
    match req with
    | none => simp [clientSendHapticsData] at h
    | some vals =>
      simp only [clientSendHapticsData] at h
      split at h
      · simp at h
      · split at h
        · simp only [Prod.mk.injEq, ClientSendAction.sent.injEq] at h
          rcases h with ⟨-, hc⟩
          rw [← hc] at hx
          rcases List.mem_map.mp hx with ⟨v, -, rfl⟩
          exact capRound6_spec v
        · simp at h
  · intro prevTxh now data vs h x hx
    simp only [serverDataReceived] at h
    repeat' split at h
    all_goals simp only [Option.some.injEq, reduceCtorEq] at h
    all_goals subst h
    all_goals
      obtain ⟨v, rfl⟩ := parseCapList_mem _ _ (by assumption) x hx
    all_goals exact capRound6_spec v

/-! ## C7: client-side duplicate suppression -/

/-- While every check time is within the suppression window of the last
transmission and the requested values are unchanged, no further transmission
occurs and the client state does not change. -/
theorem clientRunChecks_suppressed (vals : List ℚ) (t0 : ℚ) (ts : List ℚ)
    (h : ∀ t ∈ ts, ¬(t - t0 > PROTOCOL_SEND_DUPLICATE_INTERVAL_SECS)) :
    clientRunChecks ⟨vals.map capRound6, t0⟩ vals ts = [] := by
  induction ts with
  | nil => rfl
  | cons t ts ih =>
    have hstep : clientSendHapticsData ⟨vals.map capRound6, t0⟩ t (some vals)
        = (⟨vals.map capRound6, t0⟩, .rescheduled MAX_UPDATE_RATE_SECS) := by
      simp only [clientSendHapticsData]
      split
      · rfl
      · rw [if_neg]
        push_neg
        exact ⟨rfl, not_lt.mp (fun hc => h t (List.mem_cons_self t ts) hc)⟩
    simp only [clientRunChecks, hstep]
    exact ih (fun u hu => h u (List.mem_cons_of_mem t hu))

/-- Checks suppressed up to a point leave the state alone, so a later check
list continues from the same state. -/
theorem clientRunChecks_append (vals : List ℚ) (t0 : ℚ) (ts rest : List ℚ)
    (h : ∀ t ∈ ts, ¬(t - t0 > PROTOCOL_SEND_DUPLICATE_INTERVAL_SECS)) :
    clientRunChecks ⟨vals.map capRound6, t0⟩ vals (ts ++ rest)
      = clientRunChecks ⟨vals.map capRound6, t0⟩ vals rest := by
  induction ts with
  | nil => rfl
  | cons t ts ih =>
    have hstep : clientSendHapticsData ⟨vals.map capRound6, t0⟩ t (some vals)
        = (⟨vals.map capRound6, t0⟩, .rescheduled MAX_UPDATE_RATE_SECS) := by
      simp only [clientSendHapticsData]
      split
      · rfl
      · rw [if_neg]
        push_neg
        exact ⟨rfl, not_lt.mp (fun hc => h t (List.mem_cons_self t ts) hc)⟩
    simp only [List.cons_append, clientRunChecks, hstep]
    exact ih (fun u hu => h u (List.mem_cons_of_mem t hu))

/-- C7: from a fresh Active client, a nonempty request transmits once at t0;
identical requests at check times strictly inside the 14.25 s window
(95 percent of the 15 s persistence window) transmit nothing further and
merely reschedule the check after 1/60 s; and an identical request made once
more than 14.25 s has elapsed is transmitted as a refresh. -/
theorem c7_duplicate_suppression (vals : List ℚ) (t0 tLate : ℚ) (within : List ℚ)
    (hv : vals ≠ [])
    (hwin : ∀ t ∈ within, t - t0 < PROTOCOL_SEND_DUPLICATE_INTERVAL_SECS)
    (hlate : tLate - t0 > PROTOCOL_SEND_DUPLICATE_INTERVAL_SECS) :
    clientRunChecks clientInit vals (t0 :: within) = [t0] ∧
    clientRunChecks clientInit vals (t0 :: (within ++ [tLate])) = [t0, tLate] ∧
    ∀ t ∈ within, clientSendHapticsData ⟨vals.map capRound6, t0⟩ t (some vals)
      = (⟨vals.map capRound6, t0⟩, .rescheduled MAX_UPDATE_RATE_SECS) := by
  have hwin' : ∀ t ∈ within, ¬(t - t0 > PROTOCOL_SEND_DUPLICATE_INTERVAL_SECS) :=
    fun t ht => not_lt.mpr (le_of_lt (hwin t ht))
  have hfirst : clientSendHapticsData clientInit t0 (some vals)
      = (⟨vals.map capRound6, t0⟩, .sent (vals.map capRound6)) := by
    simp only [clientSendHapticsData, clientInit]
    rw [if_neg (by simpa using hv), if_pos]
    left
    simpa using hv
  refine ⟨?_, ?_, ?_⟩
  · simp only [clientRunChecks, hfirst]
    rw [clientRunChecks_suppressed vals t0 within hwin']
  · simp only [clientRunChecks, hfirst]
    rw [clientRunChecks_append vals t0 within [tLate] hwin']
    have hlstep : clientSendHapticsData ⟨vals.map capRound6, t0⟩ tLate (some vals)
        = (⟨vals.map capRound6, tLate⟩, .sent (vals.map capRound6)) := by
      simp only [clientSendHapticsData]
      rw [if_neg (by simpa using hv), if_pos (Or.inr hlate)]
    simp [clientRunChecks, hlstep]
  · intro t ht
    simp only [clientSendHapticsData]
    split
    · rfl
    · rw [if_neg]
      push_neg
      exact ⟨rfl, not_lt.mp (hwin' t ht)⟩

/-- Witness for C7 at a concrete input: request [0.5] at times 0, 1, 2
(inside the window) and 15 (outside). -/
theorem c7_duplicate_suppression_witness :
    clientRunChecks clientInit [1 / 2] [0, 1, 2] = [0] ∧
    clientRunChecks clientInit [1 / 2] [0, 1, 2, 15] = [0, 15] ∧
    ∀ t ∈ [(1 : ℚ), 2], clientSendHapticsData ⟨[(1 : ℚ) / 2].map capRound6, 0⟩ t (some [1 / 2])
      = (⟨[(1 : ℚ) / 2].map capRound6, 0⟩, .rescheduled MAX_UPDATE_RATE_SECS) :=
  c7_duplicate_suppression [1 / 2] 0 15 [1, 2] (by decide) (by decide) (by decide)

/-! ## C8: the persist-duration branch of the physics update -/

/-- C8 counterexample: with a previous update at time 0, running average 0
and impact 0.3, an update at time 30 (Δt = 30 > 15) leaves impact alone but
does change the running-average field (to 1800.75), so the update does not
leave the impact and running-average state entirely unchanged. -/
theorem c8_avg_updated_beyond_persist_counterexample :
    physicsTimeDelta ⟨some 0, 0, false, 3 / 10, 0, 0⟩ 30 > PERSIST_DURATION_SECS ∧
    (physicsUpdate ⟨some 0, 0, false, 3 / 10, 0, 0⟩ 30 1).1.avgValue
      = 7203 / 4 ∧
    (physicsUpdate ⟨some 0, 0, false, 3 / 10, 0, 0⟩ 30 1).1.avgValue
      ≠ (FMState.mk (some 0) 0 false (3 / 10) 0 0).avgValue := by
  refine ⟨by decide, by decide, by decide⟩

/-- C8 amended: when the elapsed time exceeds the 15 s persistence window
the impact and impact-boost fields are left unchanged by the update; the
running average, however, is still updated (see the counterexample). -/
theorem c8_impact_unchanged_beyond_persist (s : FMState) (now v : ℚ)
    (h : physicsTimeDelta s now > PERSIST_DURATION_SECS) :
    (physicsUpdate s now v).1.impact = s.impact ∧
    (physicsUpdate s now v).1.impactBoost = s.impactBoost := by
  refine ⟨?_, ?_⟩ <;> simp only [physicsUpdate, if_neg (not_le.mpr h)]

/-- Witness for C8 amended at a concrete state with Δt = 31 > 15. -/
theorem c8_impact_unchanged_beyond_persist_witness :
    (physicsUpdate ⟨some 0, 1 / 2, true, 3, 2, 1⟩ 31 (1 / 4)).1.impact
      = (FMState.mk (some 0) (1 / 2) true 3 2 1).impact ∧
    (physicsUpdate ⟨some 0, 1 / 2, true, 3, 2, 1⟩ 31 (1 / 4)).1.impactBoost
      = (FMState.mk (some 0) (1 / 2) true 3 2 1).impactBoost :=
  c8_impact_unchanged_beyond_persist ⟨some 0, 1 / 2, true, 3, 2, 1⟩ 31 (1 / 4) (by decide)

/-! ## C10: parse_inputs with absent or unmatched input -/

/-- C10: parse_inputs with None, with an empty list, or with no configured
index (normal or override) in range, cancels any pending physics timer and
applies (0, 0) to the outputs, leaving previous_value, previous_time,
impact, impact_boost and the running average untouched. -/
theorem c10_parse_inputs_absent (cfg : FMConfig) (s : FMState) (now : ℚ)
    (req : Option (List ℚ))
    (h : req = none ∨ req = some [] ∨
      ∃ l, req = some l ∧ (∀ i ∈ cfg.inputIds, l.length ≤ i) ∧
        (∀ i ∈ cfg.overrideIds, l.length ≤ i)) :
    parseInputs cfg s now req = ({ s with physicsTimer := false }, (0, 0)) := by
  rcases h with rfl | rfl | ⟨l, rfl, hin, hover⟩
  · rfl
  · rfl
  · simp only [parseInputs]
    split
    · rfl
    · rw [if_pos]
      · rfl
      · have hfil : cfg.inputIds.filter (fun i => i < l.length) = [] :=
          List.filter_eq_nil_iff.mpr (fun i hi => by
            simpa using not_lt.mpr (hin i hi))
        have hany : cfg.overrideIds.any (fun i => i < l.length) = false :=
          List.any_eq_false.mpr (fun i hi => by
            simpa using not_lt.mpr (hover i hi))
        simp [hfil, hany]

/-- Witness for C10: a state with an armed timer and nonzero physics fields,
interrupted by a None input. -/
theorem c10_parse_inputs_absent_witness :
    parseInputs ⟨[0], [1]⟩ ⟨some 2, 1 / 2, true, 3, 2, 1⟩ 5 none
      = ({ FMState.mk (some 2) (1 / 2) true 3 2 1 with physicsTimer := false }, (0, 0)) :=
  c10_parse_inputs_absent ⟨[0], [1]⟩ ⟨some 2, 1 / 2, true, 3, 2, 1⟩ 5 none (Or.inl rfl)

end RemoteHaptics
